import Mathlib

/-!
Verification of the sequence deduplication and clustering engine of
`scripts/select_uniq.py`.

The script is embedded shallowly:

* Python dicts (which preserve insertion order) become insertion-ordered
  association lists; Python sets of names become duplicate-free lists viewed
  up to membership.
* `sorted` (Timsort, a stable comparison sort using only `<`) becomes a
  stable insertion sort `pySorted` parameterised by a decidable relation;
  on the strict orders actually used by the script the two coincide, and the
  embedding keeps Python's exact comparison semantics, including the
  proper-subset comparison of name sets inside cluster tuples.
* Fallible operations (indexing `sorted(...)[0]` on a possibly empty list)
  return `Option`.
-/

namespace SelectUniq

/-- Python `str.startswith(pre)`, computed on the character lists. -/
def pyStartsWith (s pre : String) : Bool := pre.data.isPrefixOf s.data

/-- Python `str.endswith(suf)`, computed on the character lists. -/
def pyEndsWith (s suf : String) : Bool := suf.data.isSuffixOf s.data

/-- Python `str.strip()` (the inputs here only carry ASCII whitespace),
computed on the character lists. -/
def pyStrip (s : String) : String :=
  ⟨((s.data.dropWhile Char.isWhitespace).reverse.dropWhile Char.isWhitespace).reverse⟩

/-- One character of Python `str.upper()` on the ASCII residue alphabet used by
sequence data: a lowercase letter moves 32 code points down, everything else is
unchanged. -/
def upperChar (c : Char) : Char :=
  if 97 ≤ c.toNat ∧ c.toNat ≤ 122 then Char.ofNat (c.toNat - 32) else c

/-- Python `str.upper()` on sequence text. -/
def pyUpper (s : String) : String := ⟨s.data.map upperChar⟩

/-- Insert an element into a list, placing it before the first strictly greater
element; later-inserted elements land after incomparable or equal ones, which
is exactly Timsort's stability. -/
def pyInsert (r : α → α → Prop) [DecidableRel r] (a : α) : List α → List α
  | [] => [a]
  | b :: l => if r a b then a :: b :: l else b :: pyInsert r a l

/-- Python `sorted`, as a stable insertion sort using the comparison `r`. -/
def pySorted (r : α → α → Prop) [DecidableRel r] (l : List α) : List α :=
  l.foldl (fun acc x => pyInsert r x acc) []

/-- Lexicographic comparison of a pair, as Python compares tuples: the first
components decide unless they are equal. -/
def tupLt (la : α → α → Prop) (lb : β → β → Prop) (p q : α × β) : Prop :=
  la p.1 q.1 ∨ (p.1 = q.1 ∧ lb p.2 q.2)

instance {la : α → α → Prop} {lb : β → β → Prop} [DecidableEq α]
    [DecidableRel la] [DecidableRel lb] : DecidableRel (tupLt la lb) :=
  fun p q => inferInstanceAs (Decidable (la p.1 q.1 ∨ (p.1 = q.1 ∧ lb p.2 q.2)))

/-- Python `<` on strings: code-point lexicographic comparison, computed on
the character lists (the order Lean's core `String` instance also uses). -/
def strLt (a b : String) : Prop := List.lt a.data b.data

instance : DecidableRel strLt := fun a b => List.hasDecidableLt a.data b.data

/-- The sort key `lambda nm: (len(nm), nm)` of `select_shortest`. -/
def shKey (nm : String) : Nat × String := (nm.length, nm)

/-- Comparison of names by `(len(nm), nm)`. -/
def shLt (a b : String) : Prop := tupLt (· < ·) strLt (shKey a) (shKey b)

instance : DecidableRel shLt := fun a b =>
  inferInstanceAs (Decidable (tupLt (· < ·) strLt (shKey a) (shKey b)))

/-- Python `<` on `(name, sequence)` pairs, used by `sorted(seqs.items())` in
`write_seqs`. -/
def pairLt (p q : String × String) : Prop := tupLt strLt strLt p q

instance : DecidableRel pairLt := fun p q =>
  inferInstanceAs (Decidable (tupLt strLt strLt p q))

/-- `load_nms` of `scripts/select_uniq.py`: skip lines starting with `#`, add
every other line stripped.  The Python `set` is modelled as a list read up to
membership. -/
def load_nms (inlist : List String) : List String :=
  (inlist.filter (fun line => !pyStartsWith line "#")).map pyStrip

/-- Lines 102-105 of `main`: without a `--gold` file the preferred set stays
empty; with one it is `load_nms` of its lines. -/
def preferredOf : Option (List String) → List String
  | none => []
  | some inlist => load_nms inlist

/-- `line.split()[0].lstrip(">")` for a header line: the first
whitespace-delimited token with all leading `>` stripped. -/
def headerName (line : String) : String :=
  ⟨(line.data.takeWhile (fun c => !c.isWhitespace)).dropWhile (fun c => c == '>')⟩

/-- `seqs.setdefault(seq, set()).add(nm)` on an insertion-ordered dict mapping
a sequence to the list of names that share it. -/
def dictAddName (seq nm : String) : List (String × List String) → List (String × List String)
  | [] => [(seq, [nm])]
  | (s, nms) :: rest =>
    if s = seq then (s, if nm ∈ nms then nms else nms ++ [nm]) :: rest
    else (s, nms) :: dictAddName seq nm rest

/-- `add_seq` of `scripts/select_uniq.py`: a pending record is recorded unless
no header has been seen yet (`nm is None`); the assembled sequence may be
empty. -/
def add_seq (nm : Option String) (seq : String) (seqs : List (String × List String)) :
    List (String × List String) :=
  match nm with
  | none => seqs
  | some n => dictAddName seq n seqs

/-- The loop state of `load_seqs`: current name, accumulated (stripped)
sequence lines, and the dict built so far. -/
def load_seqsAux (nm : Option String) (seq : List String) (seqs : List (String × List String)) :
    List String → List (String × List String)
  | [] => add_seq nm (String.join seq) seqs
  | line :: rest =>
    if pyStartsWith line ">" then
      load_seqsAux (some (headerName line)) [] (add_seq nm (String.join seq) seqs) rest
    else
      load_seqsAux nm (seq ++ [pyStrip line]) seqs rest

/-- `load_seqs` of `scripts/select_uniq.py`. -/
def load_seqs (lines : List String) : List (String × List String) :=
  load_seqsAux none [] [] lines

/-- The record flushed by one `add_seq` call, as a `(name, sequence)` pair;
nothing is flushed before the first header. -/
def flushRecord (nm : Option String) (seq : List String) : List (String × String) :=
  match nm with
  | none => []
  | some n => [(n, String.join seq)]

/-- The records assembled by the `load_seqs` loop, in flush order. -/
def parseRecordsAux (nm : Option String) (seq : List String) :
    List String → List (String × String)
  | [] => flushRecord nm seq
  | line :: rest =>
    if pyStartsWith line ">" then
      flushRecord nm seq ++ parseRecordsAux (some (headerName line)) [] rest
    else
      parseRecordsAux nm (seq ++ [pyStrip line]) rest

/-- The `(name, assembled sequence)` records of an input line stream. -/
def parseRecords (lines : List String) : List (String × String) :=
  parseRecordsAux none [] lines

/-- Accumulate records into the sequence dict, starting from `seqs`. -/
def groupRecordsFrom (seqs : List (String × List String)) (recs : List (String × String)) :
    List (String × List String) :=
  recs.foldl (fun g r => dictAddName r.2 r.1 g) seqs

/-- The grouping of records by exact sequence, as `load_seqs` builds it. -/
def groupRecords (recs : List (String × String)) : List (String × List String) :=
  groupRecordsFrom [] recs

/-- `select_shortest` of `scripts/select_uniq.py`:
`sorted(nms, key=lambda nm: (len(nm), nm))[0]`, with the possible
`IndexError` on an empty candidate list modelled by `Option`. -/
def select_shortest (nms : List String) : Option String :=
  (pySorted shLt nms).head?

/-- `select_repr` of `scripts/select_uniq.py`.  The Python set intersection
`set(nms).intersection(preferred)` is modelled as the sublist of `nms` whose
members are in `preferred` (only its membership and its minimum are ever
used). -/
def select_repr (nms : List String) (preferred : List String) (putative_tag : String) :
    Option String :=
  let reprs := nms.filter (fun nm => decide (nm ∈ preferred))
  let reprs :=
    if reprs.isEmpty then
      let noput := nms.filter (fun nm => !pyEndsWith nm putative_tag)
      if noput.isEmpty then nms else noput
    else reprs
  select_shortest reprs

/-- Modelled from the spec: the candidate–narrowing policy of §4.3, written
from the spec's words to compare with `select_repr` as embedded from the
source: preferred intersection if non-empty, else the non-putative names if
non-empty, else all names. -/
def specCandidates (nms preferred : List String) (putative_tag : String) : List String :=
  let inter := nms.filter (fun nm => decide (nm ∈ preferred))
  if inter.isEmpty then
    let noput := nms.filter (fun nm => !pyEndsWith nm putative_tag)
    if noput.isEmpty then nms else noput
  else inter

/-- Modelled from the spec: the preference set as §6 describes it — the set of
stripped non-comment, non-empty lines. -/
def specPreferredSet (inlist : List String) : List String :=
  ((inlist.filter (fun line => !pyStartsWith line "#")).map pyStrip).filter
    (fun s => decide (s ≠ ""))

/-- Modelled from the spec: one step of the CRC-64 (ISO 3309) digest of the
external `crc64iso.crc64` library, whose source is not part of this
repository — reflected polynomial `0xD800000000000000`, processing one byte. -/
def crc64Step (crc byte : Nat) : Nat :=
  (List.range 8).foldl
    (fun acc _ => if acc % 2 = 1 then (acc / 2) ^^^ 0xD800000000000000 else acc / 2)
    (crc ^^^ byte)

/-- Modelled from the spec: the CRC-64 register over a byte stream, 64-bit
register initialised to 0, no final XOR. -/
def crc64Nat (bytes : List Nat) : Nat :=
  bytes.foldl (fun crc b => crc64Step crc (b % 256)) 0

/-- An uppercase hexadecimal digit. -/
def hexDigit (n : Nat) : Char :=
  if n < 10 then Char.ofNat (48 + n) else Char.ofNat (55 + n)

/-- A 64-bit value as 16 uppercase hexadecimal digits. -/
def toHex16 (n : Nat) : String :=
  ⟨(List.range 16).map (fun i => hexDigit (n / 16 ^ (15 - i) % 16))⟩

/-- Modelled from the spec: `crc64iso.crc64`, rendered as a fixed-width hex
string; sequences are ASCII so bytes are the character codes. -/
def crc64 (s : String) : String :=
  toHex16 (crc64Nat (s.data.map Char.toNat))

/-- The checksum `main` records for a group: `crc64(seq.upper())`. -/
def engineChecksum (seq : String) : String := crc64 (pyUpper seq)

/-- One entry of the `clusters` list of `main`:
`(-len(nms), repr_nm, len(seq), nms, checksum)`. -/
structure ClusterT where
  negSize : Int
  reprNm : String
  seqLen : Nat
  nms : List String
  checksum : String
  deriving DecidableEq

/-- The cluster tuple `main` appends for one `(seq, nms)` item, `none` when
`select_repr` would raise on an empty name set. -/
def mkCluster (preferred : List String) (p : String × List String) : Option ClusterT :=
  (select_repr p.2 preferred "P").map
    (fun r => ⟨-(p.2.length : Int), r, p.1.length, p.2, engineChecksum p.1⟩)

/-- The `clusters` list of `main`, in dict iteration order. -/
def buildClusters (preferred : List String) (seqs : List (String × List String)) :
    Option (List ClusterT) :=
  seqs.mapM (mkCluster preferred)

/-- The representative `main` obtains for a name set (total version, used to
describe the successful runs). -/
def reprOf (preferred : List String) (nms : List String) : String :=
  (select_repr nms preferred "P").getD ""

/-- The cluster tuple of a group on a successful run. -/
def clusterOf (preferred : List String) (p : String × List String) : ClusterT :=
  ⟨-(p.2.length : Int), reprOf preferred p.2, p.1.length, p.2, engineChecksum p.1⟩

/-- Python dict assignment `d[k] = v`: overwrite in place or append. -/
def dictSet (k v : String) : List (String × String) → List (String × String)
  | [] => [(k, v)]
  | (k1, v1) :: rest =>
    if k1 = k then (k1, v) :: rest else (k1, v1) :: dictSet k v rest

/-- The `reprs` dict of `main`: `reprs[repr_nm] = seq` for each group, in
iteration order. -/
def reprsDict (cs : List ClusterT) (seqs : List (String × List String)) :
    List (String × String) :=
  (cs.zip seqs).foldl (fun d pc => dictSet pc.1.reprNm pc.2.1 d) []

/-- Python `==` on sets of names (the lists are read as sets). -/
def pySetEq (a b : List String) : Prop := (∀ x ∈ a, x ∈ b) ∧ (∀ x ∈ b, x ∈ a)

instance : ∀ a b : List String, Decidable (pySetEq a b) := fun a b =>
  inferInstanceAs (Decidable ((∀ x ∈ a, x ∈ b) ∧ (∀ x ∈ b, x ∈ a)))

/-- Python `<` on sets of names: proper subset. -/
def pySetLt (a b : List String) : Prop := (∀ x ∈ a, x ∈ b) ∧ ∃ x ∈ b, x ∉ a

instance : ∀ a b : List String, Decidable (pySetLt a b) := fun a b =>
  inferInstanceAs (Decidable ((∀ x ∈ a, x ∈ b) ∧ ∃ x ∈ b, x ∉ a))

/-- Python `<` on the cluster tuples of `main`, exactly as `sorted(clusters)`
compares them: componentwise, the first differing component decides, with the
set of names compared by Python set comparison (proper subset) in fourth
position. -/
def clusterLt (c d : ClusterT) : Prop :=
  c.negSize < d.negSize ∨ (c.negSize = d.negSize ∧
    (strLt c.reprNm d.reprNm ∨ (c.reprNm = d.reprNm ∧
      (c.seqLen < d.seqLen ∨ (c.seqLen = d.seqLen ∧
        ((¬ pySetEq c.nms d.nms ∧ pySetLt c.nms d.nms) ∨
          (pySetEq c.nms d.nms ∧ strLt c.checksum d.checksum)))))))

instance : DecidableRel clusterLt := fun c d =>
  inferInstanceAs (Decidable
    (c.negSize < d.negSize ∨ (c.negSize = d.negSize ∧
      (strLt c.reprNm d.reprNm ∨ (c.reprNm = d.reprNm ∧
        (c.seqLen < d.seqLen ∨ (c.seqLen = d.seqLen ∧
          ((¬ pySetEq c.nms d.nms ∧ pySetLt c.nms d.nms) ∨
            (pySetEq c.nms d.nms ∧ strLt c.checksum d.checksum)))))))))

/-- The composite sort key of spec §4.4: negative group size, representative
name, sequence length, checksum. -/
def compositeKey (c : ClusterT) : Int × (String × (Nat × String)) :=
  (c.negSize, (c.reprNm, (c.seqLen, c.checksum)))

/-- Ascending comparison by the composite key of spec §4.4. -/
def compositeLt (c d : ClusterT) : Prop :=
  tupLt (· < ·) (tupLt strLt (tupLt (· < ·) strLt)) (compositeKey c) (compositeKey d)

instance : DecidableRel compositeLt := fun c d =>
  inferInstanceAs (Decidable (tupLt _ _ (compositeKey c) (compositeKey d)))

/-- A cluster with its name set put into sorted order (the canonical view a
run's outputs depend on). -/
def canonCluster (c : ClusterT) : ClusterT :=
  ⟨c.negSize, c.reprNm, c.seqLen, pySorted strLt c.nms, c.checksum⟩

/-- One row of the membership table `TAG.clusters.tsv`. -/
structure Row where
  name : String
  seqLen : Nat
  reprNm : String
  clusterId : String
  checksum : String
  deriving DecidableEq

/-- `enumerate` starting at `k`. -/
def numberFrom (k : Nat) : List ClusterT → List (Nat × ClusterT)
  | [] => []
  | c :: rest => (k, c) :: numberFrom (k + 1) rest

/-- The rows `main` writes for the cluster ranked `ic.1`: one row per member
name in sorted order, carrying the cluster id `pre ++ rank`. -/
def clusterRows (pre : String) (ic : Nat × ClusterT) : List Row :=
  (pySorted strLt ic.2.nms).map
    (fun nm => ⟨nm, ic.2.seqLen, ic.2.reprNm, pre ++ toString ic.1, ic.2.checksum⟩)

/-- All membership-table rows: clusters sorted by Python tuple comparison,
enumerated from 0, each contributing its member rows. -/
def tsvRows (pre : String) (cs : List ClusterT) : List Row :=
  (numberFrom 0 (pySorted clusterLt cs)).flatMap (clusterRows pre)

/-- The comment-prefixed header row of `TAG.clusters.tsv`. -/
def tsvHeader (coln colr : String) : String :=
  "#:" ++ coln ++ "\tSequence_length\t" ++ colr ++ "\tCluster_ID\tCRC64"

/-- A row as the tab-separated line `main` prints. -/
def renderRow (r : Row) : String :=
  r.name ++ "\t" ++ toString r.seqLen ++ "\t" ++ r.reprNm ++ "\t" ++ r.clusterId
    ++ "\t" ++ r.checksum

/-- The lines of `TAG.clusters.tsv`. -/
def clustersTsv (pre coln colr : String) (cs : List ClusterT) : List String :=
  tsvHeader coln colr :: (tsvRows pre cs).map renderRow

/-- Modelled from the spec: `textwrap.wrap` of the Python standard library
(not part of this repository) on whitespace-free sequence text — chunks of at
most `width` characters, none for the empty string. -/
def chunksOf (width : Nat) (l : List Char) : List (List Char) :=
  match l with
  | [] => []
  | c :: rest =>
    if h : width = 0 then []
    else (c :: rest).take width :: chunksOf width ((c :: rest).drop width)
  termination_by l.length
  decreasing_by
    simp only [List.length_drop, List.length_cons]
    omega

/-- `wrap(seq, width)` on sequence text. -/
def wrapChunks (width : Nat) (s : String) : List String :=
  (chunksOf width s.data).map (fun l => ⟨l⟩)

/-- The lines `write_seqs` prints for one record: the `>`-header, then the
wrapped sequence; `print(*wrap(""), sep="\n")` prints a single empty line. -/
def seqRecordLines (width : Nat) (p : String × String) : List String :=
  (">" ++ p.1) :: (if (wrapChunks width p.2).isEmpty then [""] else wrapChunks width p.2)

/-- `write_seqs` of `scripts/select_uniq.py`: records sorted by
`sorted(seqs.items())`, as the list of printed lines. -/
def write_seqs (width : Nat) (reprs : List (String × String)) : List String :=
  (pySorted pairLt reprs).flatMap (seqRecordLines width)

/-- The clustering stage of `main` on a loaded sequence dict: `none` when the
script would raise. -/
def runEngineSeqs (preferred : List String) (pre : String) (width : Nat)
    (coln colr : String) (seqs : List (String × List String)) :
    Option (List String × List String) :=
  match buildClusters preferred seqs with
  | none => none
  | some cs =>
    some (write_seqs width (reprsDict cs seqs), clustersTsv pre coln colr cs)

/-- The whole engine on an input line stream: the lines of `TAG.fasta.gz` and
of `TAG.clusters.tsv`. -/
def runEngine (preferred : List String) (pre : String) (width : Nat)
    (coln colr : String) (lines : List String) : Option (List String × List String) :=
  runEngineSeqs preferred pre width coln colr (load_seqs lines)

/-- The engine viewed from the records it consumes (the loader's grouping of
the record multiset). -/
def runEngineRecords (preferred : List String) (pre : String) (width : Nat)
    (coln colr : String) (recs : List (String × String)) :
    Option (List String × List String) :=
  runEngineSeqs preferred pre width coln colr (groupRecords recs)

/-- The member list recorded for sequence `s`. -/
def namesOf (s : String) (g : List (String × List String)) : List String :=
  (List.lookup s g).getD []

/-- The last value written for key `r` by a sequence of dict assignments. -/
def lastAssoc (r : String) (ps : List (String × String)) : Option String :=
  ps.foldl (fun acc p => if p.1 = r then some p.2 else acc) none

/-! ### Generic facts about the stable sort `pySorted` -/

theorem pyInsert_perm (r : α → α → Prop) [DecidableRel r] (a : α) (l : List α) :
    (pyInsert r a l).Perm (a :: l) := by
  induction l with
  | nil => simp [pyInsert]
  | cons b l ih =>
    by_cases h : r a b
    · simp [pyInsert, h]
    · simpa [pyInsert, h] using (ih.cons b).trans (List.Perm.swap a b l)

theorem pySorted_from_perm (r : α → α → Prop) [DecidableRel r] :
    ∀ (l acc : List α), (l.foldl (fun acc x => pyInsert r x acc) acc).Perm (acc ++ l)
  | [], acc => by simp
  | x :: l, acc => by
    have h1 := pySorted_from_perm r l (pyInsert r x acc)
    have h2 : (pyInsert r x acc ++ l).Perm (acc ++ x :: l) :=
      ((pyInsert_perm r x acc).append_right l).trans List.perm_middle.symm
    simpa using h1.trans h2

theorem pySorted_perm (r : α → α → Prop) [DecidableRel r] (l : List α) :
    (pySorted r l).Perm l := by
  simpa [pySorted] using pySorted_from_perm r l []

theorem pySorted_eq_nil_iff (r : α → α → Prop) [DecidableRel r] (l : List α) :
    pySorted r l = [] ↔ l = [] := by
  constructor
  · intro h
    have := (pySorted_perm r l).symm
    rw [h] at this
    exact this.eq_nil
  · rintro rfl
    rfl

theorem pyInsert_pairwise {r : α → α → Prop} [DecidableRel r]
    (hasym : ∀ x y, r x y → ¬ r y x) (htrans : ∀ x y z, r x y → r y z → r x z)
    (a : α) : ∀ {l : List α}, l.Pairwise (fun x y => ¬ r y x) →
      (pyInsert r a l).Pairwise (fun x y => ¬ r y x)
  | [], _ => by simp [pyInsert, List.pairwise_singleton]
  | b :: l, hp => by
    rcases List.pairwise_cons.mp hp with ⟨hb, hl⟩
    by_cases h : r a b
    · rw [pyInsert, if_pos h]
      refine List.pairwise_cons.mpr ⟨?_, hp⟩
      intro y hy
      rcases List.mem_cons.mp hy with rfl | hy
      · exact hasym a y h
      · intro hya
        exact hb y hy (htrans y a b hya h)
    · rw [pyInsert, if_neg h]
      refine List.pairwise_cons.mpr ⟨?_, pyInsert_pairwise hasym htrans a hl⟩
      intro y hy
      have hy2 : y ∈ a :: l := (pyInsert_perm r a l).mem_iff.mp hy
      rcases List.mem_cons.mp hy2 with rfl | hy2
      · exact h
      · exact hb y hy2

theorem pySorted_from_pairwise {r : α → α → Prop} [DecidableRel r]
    (hasym : ∀ x y, r x y → ¬ r y x) (htrans : ∀ x y z, r x y → r y z → r x z) :
    ∀ (l acc : List α), acc.Pairwise (fun x y => ¬ r y x) →
      (l.foldl (fun acc x => pyInsert r x acc) acc).Pairwise (fun x y => ¬ r y x)
  | [], _, hacc => hacc
  | x :: l, acc, hacc =>
    pySorted_from_pairwise hasym htrans l (pyInsert r x acc)
      (pyInsert_pairwise hasym htrans x hacc)

theorem pySorted_pairwise {r : α → α → Prop} [DecidableRel r]
    (hasym : ∀ x y, r x y → ¬ r y x) (htrans : ∀ x y z, r x y → r y z → r x z)
    (l : List α) : (pySorted r l).Pairwise (fun x y => ¬ r y x) :=
  pySorted_from_pairwise hasym htrans l [] List.Pairwise.nil

theorem pyInsert_congr {r r2 : α → α → Prop} [DecidableRel r] [DecidableRel r2]
    (a : α) : ∀ {l : List α}, (∀ b ∈ l, (r a b ↔ r2 a b)) →
      pyInsert r a l = pyInsert r2 a l
  | [], _ => rfl
  | b :: l, h => by
    have hb := h b (List.mem_cons_self b l)
    by_cases hab : r a b
    · rw [pyInsert, if_pos hab, pyInsert, if_pos (hb.mp hab)]
    · rw [pyInsert, if_neg hab, pyInsert, if_neg (fun h2 => hab (hb.mpr h2)),
        pyInsert_congr a (fun c hc => h c (List.mem_cons_of_mem b hc))]

theorem pySorted_from_congr {r r2 : α → α → Prop} [DecidableRel r] [DecidableRel r2] :
    ∀ (l acc : List α), (∀ a ∈ acc ++ l, ∀ b ∈ acc ++ l, (r a b ↔ r2 a b)) →
      l.foldl (fun acc x => pyInsert r x acc) acc
        = l.foldl (fun acc x => pyInsert r2 x acc) acc
  | [], _, _ => rfl
  | x :: l, acc, h => by
    have hx : x ∈ acc ++ x :: l := by simp
    have hins : pyInsert r x acc = pyInsert r2 x acc :=
      pyInsert_congr x (fun b hb => h x hx b (by simp [hb]))
    have hmem : ∀ c ∈ pyInsert r2 x acc ++ l, c ∈ acc ++ x :: l := by
      intro c hc
      rcases List.mem_append.mp hc with hc | hc
      · rcases List.mem_cons.mp ((pyInsert_perm r2 x acc).mem_iff.mp hc) with rfl | hc
        · exact hx
        · simp [hc]
      · simp [hc]
    calc (x :: l).foldl (fun acc x => pyInsert r x acc) acc
        = l.foldl (fun acc x => pyInsert r x acc) (pyInsert r2 x acc) := by
          simp [List.foldl_cons, hins]
      _ = l.foldl (fun acc x => pyInsert r2 x acc) (pyInsert r2 x acc) :=
          pySorted_from_congr l (pyInsert r2 x acc)
            (fun a ha b hb => h a (hmem a ha) b (hmem b hb))

theorem pySorted_congr {r r2 : α → α → Prop} [DecidableRel r] [DecidableRel r2]
    (l : List α) (h : ∀ a ∈ l, ∀ b ∈ l, (r a b ↔ r2 a b)) :
    pySorted r l = pySorted r2 l :=
  pySorted_from_congr l [] (by simpa using h)

theorem pyInsert_map {r : α → α → Prop} {r2 : β → β → Prop}
    [DecidableRel r] [DecidableRel r2] (f : α → β) (a : α) :
    ∀ {l : List α}, (∀ b ∈ l, (r a b ↔ r2 (f a) (f b))) →
      (pyInsert r a l).map f = pyInsert r2 (f a) (l.map f)
  | [], _ => rfl
  | b :: l, h => by
    have hb := h b (List.mem_cons_self b l)
    by_cases hab : r a b
    · rw [pyInsert, if_pos hab]
      simp only [List.map_cons, pyInsert, if_pos (hb.mp hab)]
    · rw [pyInsert, if_neg hab]
      simp only [List.map_cons, pyInsert, if_neg (fun h2 => hab (hb.mpr h2))]
      rw [pyInsert_map f a (fun c hc => h c (List.mem_cons_of_mem b hc))]

theorem pySorted_from_map {r : α → α → Prop} {r2 : β → β → Prop}
    [DecidableRel r] [DecidableRel r2] (f : α → β) :
    ∀ (l acc : List α), (∀ a ∈ acc ++ l, ∀ b ∈ acc ++ l, (r a b ↔ r2 (f a) (f b))) →
      (l.foldl (fun acc x => pyInsert r x acc) acc).map f
        = (l.map f).foldl (fun acc x => pyInsert r2 x acc) (acc.map f)
  | [], _, _ => rfl
  | x :: l, acc, h => by
    have hx : x ∈ acc ++ x :: l := by simp
    have hins : (pyInsert r x acc).map f = pyInsert r2 (f x) (acc.map f) :=
      pyInsert_map f x (fun b hb => h x hx b (by simp [hb]))
    have hmem : ∀ c ∈ pyInsert r x acc ++ l, c ∈ acc ++ x :: l := by
      intro c hc
      rcases List.mem_append.mp hc with hc | hc
      · rcases List.mem_cons.mp ((pyInsert_perm r x acc).mem_iff.mp hc) with rfl | hc
        · exact hx
        · simp [hc]
      · simp [hc]
    calc ((x :: l).foldl (fun acc x => pyInsert r x acc) acc).map f
        = (l.foldl (fun acc x => pyInsert r x acc) (pyInsert r x acc)).map f := by
          simp [List.foldl_cons]
      _ = (l.map f).foldl (fun acc x => pyInsert r2 x acc) ((pyInsert r x acc).map f) :=
          pySorted_from_map f l (pyInsert r x acc)
            (fun a ha b hb => h a (hmem a ha) b (hmem b hb))
      _ = ((x :: l).map f).foldl (fun acc x => pyInsert r2 x acc) (acc.map f) := by
          simp [List.map_cons, List.foldl_cons, hins]

theorem pySorted_map {r : α → α → Prop} {r2 : β → β → Prop}
    [DecidableRel r] [DecidableRel r2] (f : α → β) (l : List α)
    (h : ∀ a ∈ l, ∀ b ∈ l, (r a b ↔ r2 (f a) (f b))) :
    (pySorted r l).map f = pySorted r2 (l.map f) :=
  pySorted_from_map f l [] (by simpa using h)

/-- Two lists that are permutations of each other and both sorted are equal,
when incomparability implies equality on the members involved. -/
theorem sorted_perm_unique {r : α → α → Prop} :
    ∀ {l1 l2 : List α}, l1.Perm l2 →
      l1.Pairwise (fun x y => ¬ r y x) → l2.Pairwise (fun x y => ¬ r y x) →
      (∀ a ∈ l1, ∀ b ∈ l1, ¬ r a b → ¬ r b a → a = b) → l1 = l2
  | [], l2, hp, _, _, _ => hp.symm.eq_nil.symm
  | a :: t1, l2, hp, h1, h2, hanti => by
    have ha2 : a ∈ l2 := hp.mem_iff.mp (List.mem_cons_self a t1)
    cases l2 with
    | nil => exact absurd ha2 (List.not_mem_nil a)
    | cons b t2 =>
      rcases List.pairwise_cons.mp h1 with ⟨h1b, h1t⟩
      rcases List.pairwise_cons.mp h2 with ⟨h2b, h2t⟩
      have hb1 : b ∈ a :: t1 := hp.symm.mem_iff.mp (List.mem_cons_self b t2)
      have hab : a = b := by
        rcases List.mem_cons.mp hb1 with rfl | hbt
        · rfl
        · rcases List.mem_cons.mp ha2 with rfl | hat
          · rfl
          · exact hanti a (List.mem_cons_self a t1) b (List.mem_cons_of_mem a hbt)
              (h2b a hat) (h1b b hbt)
      subst hab
      have htp : t1.Perm t2 := hp.cons_inv
      rw [sorted_perm_unique htp h1t h2t
        (fun x hx y hy => hanti x (List.mem_cons_of_mem a hx) y (List.mem_cons_of_mem a hy))]

theorem pairwise_head_min {r : α → α → Prop}
    (hasym : ∀ x y, r x y → ¬ r y x) {x : α} {t : List α}
    (h : (x :: t).Pairwise (fun a b => ¬ r b a)) :
    ∀ y ∈ x :: t, ¬ r y x := by
  intro y hy
  rcases List.mem_cons.mp hy with rfl | hy
  · intro hr
    exact hasym y y hr hr
  · exact (List.pairwise_cons.mp h).1 y hy

/-- From a pairwise relation, compare any two members of the list. -/
theorem pairwise_two_mem {R : α → α → Prop} {l : List α} (hp : l.Pairwise R) :
    ∀ a ∈ l, ∀ b ∈ l, a = b ∨ R a b ∨ R b a := by
  induction hp with
  | nil =>
    intro a ha
    exact absurd ha (List.not_mem_nil a)
  | cons hx _ ih =>
    intro a ha b hb
    rcases List.mem_cons.mp ha with ha1 | ha1
    · rcases List.mem_cons.mp hb with hb1 | hb1
      · exact Or.inl (ha1.trans hb1.symm)
      · subst ha1
        exact Or.inr (Or.inl (hx b hb1))
    · rcases List.mem_cons.mp hb with hb1 | hb1
      · subst hb1
        exact Or.inr (Or.inr (hx a ha1))
      · exact ih a ha1 b hb1

/-! ### Order facts for the comparisons the script uses -/

theorem tupLt_asymm {la : α → α → Prop} {lb : β → β → Prop}
    (ha : ∀ x y, la x y → ¬ la y x) (hb : ∀ x y, lb x y → ¬ lb y x) :
    ∀ p q, tupLt la lb p q → ¬ tupLt la lb q p := by
  rintro p q (h | ⟨e, h⟩) (h2 | ⟨e2, h2⟩)
  · exact ha _ _ h h2
  · rw [e2] at h
    exact ha _ _ h h
  · rw [e] at h2
    exact ha _ _ h2 h2
  · exact hb _ _ h h2

theorem tupLt_trans {la : α → α → Prop} {lb : β → β → Prop}
    (ha : ∀ x y z, la x y → la y z → la x z)
    (hb : ∀ x y z, lb x y → lb y z → lb x z) :
    ∀ p q s, tupLt la lb p q → tupLt la lb q s → tupLt la lb p s := by
  rintro p q s (h | ⟨e, h⟩) (h2 | ⟨e2, h2⟩)
  · exact Or.inl (ha _ _ _ h h2)
  · exact Or.inl (e2 ▸ h)
  · exact Or.inl (e ▸ h2)
  · exact Or.inr ⟨e.trans e2, hb _ _ _ h h2⟩

theorem tupLt_connex {la : α → α → Prop} {lb : β → β → Prop}
    (ha : ∀ x y : α, x ≠ y → la x y ∨ la y x)
    (hb : ∀ x y : β, x ≠ y → lb x y ∨ lb y x) :
    ∀ p q : α × β, p ≠ q → tupLt la lb p q ∨ tupLt la lb q p := by
  intro p q hne
  by_cases h1 : p.1 = q.1
  · have h2 : p.2 ≠ q.2 := fun h => hne (Prod.ext h1 h)
    rcases hb _ _ h2 with h | h
    · exact Or.inl (Or.inr ⟨h1, h⟩)
    · exact Or.inr (Or.inr ⟨h1.symm, h⟩)
  · rcases ha _ _ h1 with h | h
    · exact Or.inl (Or.inl h)
    · exact Or.inr (Or.inl h)

theorem lt_asymm' {γ : Type} [LinearOrder γ] : ∀ x y : γ, x < y → ¬ y < x :=
  fun _ _ h => lt_asymm h

theorem lt_trans' {γ : Type} [LinearOrder γ] : ∀ x y z : γ, x < y → y < z → x < z :=
  fun _ _ _ h h2 => lt_trans h h2

theorem lt_connex' {γ : Type} [LinearOrder γ] : ∀ x y : γ, x ≠ y → x < y ∨ y < x :=
  fun _ _ h => lt_or_gt_of_ne h

theorem strLt_iff (a b : String) : strLt a b ↔ a < b := by
  rw [String.lt_iff_toList_lt]
  exact List.lt_iff_lex_lt a.data b.data

theorem strLt_asymm : ∀ x y : String, strLt x y → ¬ strLt y x :=
  fun x y h h2 => lt_asymm ((strLt_iff x y).mp h) ((strLt_iff y x).mp h2)

theorem strLt_trans : ∀ x y z : String, strLt x y → strLt y z → strLt x z :=
  fun x y z h h2 =>
    (strLt_iff x z).mpr (lt_trans ((strLt_iff x y).mp h) ((strLt_iff y z).mp h2))

theorem strLt_connex : ∀ x y : String, x ≠ y → strLt x y ∨ strLt y x := by
  intro x y h
  rcases lt_or_gt_of_ne h with h2 | h2
  · exact Or.inl ((strLt_iff x y).mpr h2)
  · exact Or.inr ((strLt_iff y x).mpr h2)

theorem shLt_asymm : ∀ x y : String, shLt x y → ¬ shLt y x :=
  fun _ _ h => tupLt_asymm lt_asymm' strLt_asymm _ _ h

theorem shLt_trans : ∀ x y z : String, shLt x y → shLt y z → shLt x z :=
  fun _ _ _ h h2 => tupLt_trans lt_trans' strLt_trans _ _ _ h h2

theorem shLt_connex : ∀ x y : String, x ≠ y → shLt x y ∨ shLt y x := by
  intro x y hne
  have hk : shKey x ≠ shKey y := fun h => hne (congrArg Prod.snd h)
  exact tupLt_connex lt_connex' strLt_connex _ _ hk

theorem pairLt_asymm : ∀ p q : String × String, pairLt p q → ¬ pairLt q p :=
  fun _ _ h => tupLt_asymm strLt_asymm strLt_asymm _ _ h

theorem pairLt_trans : ∀ p q s : String × String, pairLt p q → pairLt q s → pairLt p s :=
  fun _ _ _ h h2 => tupLt_trans strLt_trans strLt_trans _ _ _ h h2

theorem pairLt_connex : ∀ p q : String × String, p ≠ q → pairLt p q ∨ pairLt q p :=
  fun _ _ h => tupLt_connex strLt_connex strLt_connex _ _ h

theorem natStrLt_asymm :
    ∀ p q : Nat × String, tupLt (· < ·) strLt p q → ¬ tupLt (· < ·) strLt q p :=
  fun _ _ h => tupLt_asymm lt_asymm' strLt_asymm _ _ h

theorem natStrLt_trans : ∀ p q s : Nat × String, tupLt (· < ·) strLt p q →
    tupLt (· < ·) strLt q s → tupLt (· < ·) strLt p s :=
  fun _ _ _ h h2 => tupLt_trans lt_trans' strLt_trans _ _ _ h h2

theorem natStrLt_connex :
    ∀ p q : Nat × String, p ≠ q → tupLt (· < ·) strLt p q ∨ tupLt (· < ·) strLt q p :=
  fun _ _ h => tupLt_connex lt_connex' strLt_connex _ _ h

theorem innerLt_asymm : ∀ p q : String × (Nat × String),
    tupLt strLt (tupLt (· < ·) strLt) p q → ¬ tupLt strLt (tupLt (· < ·) strLt) q p :=
  fun _ _ h => tupLt_asymm strLt_asymm natStrLt_asymm _ _ h

theorem innerLt_trans : ∀ p q s : String × (Nat × String),
    tupLt strLt (tupLt (· < ·) strLt) p q → tupLt strLt (tupLt (· < ·) strLt) q s →
    tupLt strLt (tupLt (· < ·) strLt) p s :=
  fun _ _ _ h h2 => tupLt_trans strLt_trans natStrLt_trans _ _ _ h h2

theorem innerLt_connex : ∀ p q : String × (Nat × String), p ≠ q →
    tupLt strLt (tupLt (· < ·) strLt) p q ∨ tupLt strLt (tupLt (· < ·) strLt) q p :=
  fun _ _ h => tupLt_connex strLt_connex natStrLt_connex _ _ h

theorem compositeLt_asymm : ∀ c d : ClusterT, compositeLt c d → ¬ compositeLt d c :=
  fun _ _ h => tupLt_asymm lt_asymm' innerLt_asymm _ _ h

theorem compositeLt_trans :
    ∀ c d e : ClusterT, compositeLt c d → compositeLt d e → compositeLt c e :=
  fun _ _ _ h h2 => tupLt_trans lt_trans' innerLt_trans _ _ _ h h2

theorem compositeLt_connex_of_key_ne {c d : ClusterT}
    (h : compositeKey c ≠ compositeKey d) : compositeLt c d ∨ compositeLt d c :=
  tupLt_connex lt_connex' innerLt_connex _ _ h

theorem compositeKey_ne_of_repr_ne {c d : ClusterT} (h : c.reprNm ≠ d.reprNm) :
    compositeKey c ≠ compositeKey d := by
  intro he
  exact h (congrArg (fun k => k.2.1) he)

theorem strLt_irrefl (a : String) : ¬ strLt a a :=
  fun h => strLt_asymm a a h h

theorem clusterLt_irrefl (c : ClusterT) : ¬ clusterLt c c := by
  intro h
  simp only [clusterLt] at h
  rcases h with h | ⟨_, h | ⟨_, h | ⟨_, ⟨hne, _⟩ | ⟨_, h⟩⟩⟩⟩
  · exact absurd h (lt_irrefl _)
  · exact strLt_irrefl _ h
  · exact absurd h (lt_irrefl _)
  · exact hne ⟨fun x hx => hx, fun x hx => hx⟩
  · exact strLt_irrefl _ h

theorem compositeLt_irrefl (c : ClusterT) : ¬ compositeLt c c := by
  intro h
  simp only [compositeLt, tupLt, compositeKey] at h
  rcases h with h | ⟨_, h | ⟨_, h | ⟨_, h⟩⟩⟩
  · exact absurd h (lt_irrefl _)
  · exact strLt_irrefl _ h
  · exact absurd h (lt_irrefl _)
  · exact strLt_irrefl _ h

/-- With distinct representative names, the Python tuple comparison of two
cluster entries is decided before the name-set component, and agrees with the
composite key of spec §4.4. -/
theorem clusterLt_iff_compositeLt_of_repr_ne {c d : ClusterT}
    (h : c.reprNm ≠ d.reprNm) : clusterLt c d ↔ compositeLt c d := by
  simp [clusterLt, compositeLt, tupLt, compositeKey, h]

theorem compositeKey_canon (c : ClusterT) :
    compositeKey (canonCluster c) = compositeKey c := rfl

theorem compositeLt_canon (c d : ClusterT) :
    compositeLt (canonCluster c) (canonCluster d) ↔ compositeLt c d := by
  simp [compositeLt, compositeKey_canon]

/-! ### The representative selector -/

theorem select_shortest_eq_none_iff (nms : List String) :
    select_shortest nms = none ↔ nms = [] := by
  rw [select_shortest, List.head?_eq_none_iff, pySorted_eq_nil_iff]

theorem select_shortest_spec {nms : List String} (h : nms ≠ []) :
    ∃ m, select_shortest nms = some m ∧ m ∈ nms ∧ ∀ x ∈ nms, ¬ shLt x m := by
  have hs : pySorted shLt nms ≠ [] := fun he => h ((pySorted_eq_nil_iff shLt nms).mp he)
  rcases List.exists_cons_of_ne_nil hs with ⟨m, t, he⟩
  refine ⟨m, ?_, ?_, ?_⟩
  · rw [select_shortest, he]
    rfl
  · exact (pySorted_perm shLt nms).mem_iff.mp (he ▸ List.mem_cons_self m t)
  · intro x hx
    have hx2 : x ∈ pySorted shLt nms := (pySorted_perm shLt nms).mem_iff.mpr hx
    have hpw := pySorted_pairwise shLt_asymm shLt_trans nms
    rw [he] at hx2 hpw
    exact pairwise_head_min shLt_asymm hpw x hx2

theorem select_shortest_mem {nms : List String} {m : String}
    (h : select_shortest nms = some m) : m ∈ nms := by
  have hne : nms ≠ [] := by
    intro he
    rw [(select_shortest_eq_none_iff nms).mpr he] at h
    exact Option.noConfusion h
  rcases select_shortest_spec hne with ⟨m2, h2, hmem, _⟩
  rw [h] at h2
  exact (Option.some_inj.mp h2) ▸ hmem

theorem select_shortest_congr {a b : List String} (hset : ∀ x, x ∈ a ↔ x ∈ b) :
    select_shortest a = select_shortest b := by
  by_cases ha : a = []
  · have hb : b = [] := by
      cases b with
      | nil => rfl
      | cons y t => exact absurd ((hset y).mpr (List.mem_cons_self y t)) (by simp [ha])
    rw [ha, hb]
  · have hb : b ≠ [] := by
      intro he
      rcases List.exists_cons_of_ne_nil ha with ⟨y, t, rfl⟩
      have := (hset y).mp (List.mem_cons_self y t)
      rw [he] at this
      exact absurd this (List.not_mem_nil y)
    rcases select_shortest_spec ha with ⟨m1, e1, mem1, min1⟩
    rcases select_shortest_spec hb with ⟨m2, e2, mem2, min2⟩
    have h12 : ¬ shLt m1 m2 := min2 m1 ((hset m1).mp mem1)
    have h21 : ¬ shLt m2 m1 := min1 m2 ((hset m2).mpr mem2)
    have : m1 = m2 := by
      by_contra hne
      rcases shLt_connex m1 m2 hne with h | h
      · exact h12 h
      · exact h21 h
    rw [e1, e2, this]

theorem select_repr_eq (nms preferred : List String) (t : String) :
    select_repr nms preferred t = select_shortest (specCandidates nms preferred t) := rfl

theorem specCandidates_subset {nms preferred : List String} {t : String} :
    ∀ x ∈ specCandidates nms preferred t, x ∈ nms := by
  intro x hx
  simp only [specCandidates] at hx
  split_ifs at hx
  · exact hx
  · exact (List.mem_filter.mp hx).1
  · exact (List.mem_filter.mp hx).1

theorem specCandidates_ne_nil {nms : List String} (preferred : List String) (t : String)
    (h : nms ≠ []) : specCandidates nms preferred t ≠ [] := by
  simp only [specCandidates]
  split_ifs with h1 h2
  · exact h
  · simpa [List.isEmpty_iff] using h2
  · simpa [List.isEmpty_iff] using h1

theorem specCandidates_eq_nil (preferred : List String) (t : String) :
    specCandidates [] preferred t = [] := rfl

theorem select_repr_spec {nms : List String} (preferred : List String) (t : String)
    (h : nms ≠ []) :
    ∃ r, select_repr nms preferred t = some r ∧ r ∈ specCandidates nms preferred t ∧
      ∀ x ∈ specCandidates nms preferred t, ¬ shLt x r := by
  rw [select_repr_eq]
  exact select_shortest_spec (specCandidates_ne_nil preferred t h)

theorem select_repr_mem {nms preferred : List String} {t r : String}
    (h : select_repr nms preferred t = some r) : r ∈ nms := by
  rw [select_repr_eq] at h
  exact specCandidates_subset r (select_shortest_mem h)

theorem select_repr_eq_none_of_nil (preferred : List String) (t : String) :
    select_repr [] preferred t = none := rfl

theorem select_repr_isSome {nms : List String} (preferred : List String)
    (h : nms ≠ []) : select_repr nms preferred "P" = some (reprOf preferred nms) := by
  rcases select_repr_spec preferred "P" h with ⟨r, hr, _, _⟩
  simp only [reprOf, hr, Option.getD_some]

theorem specCandidates_congr {a b : List String} (preferred : List String) (t : String)
    (hset : ∀ x, x ∈ a ↔ x ∈ b) :
    ∀ x, x ∈ specCandidates a preferred t ↔ x ∈ specCandidates b preferred t := by
  have hf : ∀ (f : String → Bool) (x : String),
      x ∈ a.filter f ↔ x ∈ b.filter f := by
    intro f x
    rw [List.mem_filter, List.mem_filter, hset x]
  have hfe : ∀ f : String → Bool, (a.filter f).isEmpty = (b.filter f).isEmpty := by
    intro f
    by_cases he : a.filter f = []
    · have hb : b.filter f = [] := by
        cases hb : b.filter f with
        | nil => rfl
        | cons y tl =>
          have hy : y ∈ a.filter f := (hf f y).mpr (hb ▸ List.mem_cons_self y tl)
          rw [he] at hy
          exact absurd hy (List.not_mem_nil y)
      rw [he, hb]
    · have hb : b.filter f ≠ [] := by
        intro hbe
        apply he
        cases ha2 : a.filter f with
        | nil => rfl
        | cons y tl =>
          have hy : y ∈ b.filter f := (hf f y).mp (ha2 ▸ List.mem_cons_self y tl)
          rw [hbe] at hy
          exact absurd hy (List.not_mem_nil y)
      have hae : (a.filter f).isEmpty = false := by
        cases hc : (a.filter f).isEmpty
        · rfl
        · exact absurd (List.isEmpty_iff.mp hc) he
      have hbe : (b.filter f).isEmpty = false := by
        cases hc : (b.filter f).isEmpty
        · rfl
        · exact absurd (List.isEmpty_iff.mp hc) hb
      rw [hae, hbe]
  intro x
  simp only [specCandidates]
  by_cases h1 : (a.filter fun nm => decide (nm ∈ preferred)).isEmpty = true
  · have h1b : (b.filter fun nm => decide (nm ∈ preferred)).isEmpty = true :=
      (hfe _) ▸ h1
    rw [if_pos h1, if_pos h1b]
    by_cases h2 : (a.filter fun nm => !pyEndsWith nm t).isEmpty = true
    · have h2b : (b.filter fun nm => !pyEndsWith nm t).isEmpty = true := (hfe _) ▸ h2
      rw [if_pos h2, if_pos h2b]
      exact hset x
    · have h2b : ¬ (b.filter fun nm => !pyEndsWith nm t).isEmpty = true :=
        fun hc => h2 ((hfe _).symm ▸ hc)
      rw [if_neg h2, if_neg h2b]
      exact hf _ x
  · have h1b : ¬ (b.filter fun nm => decide (nm ∈ preferred)).isEmpty = true :=
      fun hc => h1 ((hfe _).symm ▸ hc)
    rw [if_neg h1, if_neg h1b]
    exact hf _ x

theorem select_repr_congr {a b : List String} (preferred : List String) (t : String)
    (hset : ∀ x, x ∈ a ↔ x ∈ b) :
    select_repr a preferred t = select_repr b preferred t := by
  rw [select_repr_eq, select_repr_eq]
  exact select_shortest_congr (specCandidates_congr preferred t hset)

theorem reprOf_congr {a b : List String} (preferred : List String)
    (hset : ∀ x, x ∈ a ↔ x ∈ b) : reprOf preferred a = reprOf preferred b := by
  rw [reprOf, reprOf, select_repr_congr preferred "P" hset]

theorem reprOf_mem {nms : List String} (preferred : List String) (h : nms ≠ []) :
    reprOf preferred nms ∈ nms := by
  rcases select_repr_spec preferred "P" h with ⟨r, hr, _, _⟩
  have : reprOf preferred nms = r := by rw [reprOf, hr, Option.getD_some]
  rw [this]
  exact select_repr_mem hr

/-! ### The sequence dict built by the loader -/

theorem dictAddName_keys (seq nm : String) :
    ∀ g : List (String × List String),
      (dictAddName seq nm g).map Prod.fst =
        if seq ∈ g.map Prod.fst then g.map Prod.fst else g.map Prod.fst ++ [seq]
  | [] => by simp [dictAddName]
  | (s, nms) :: rest => by
    by_cases h : s = seq
    · subst h
      simp [dictAddName]
    · have hrec := dictAddName_keys seq nm rest
      by_cases h2 : seq ∈ rest.map Prod.fst
      · simp only [dictAddName, if_neg h, List.map_cons, hrec, if_pos h2]
        rw [if_pos (List.mem_cons_of_mem s h2)]
      · have hno : seq ∉ s :: rest.map Prod.fst := by
          intro hc
          rcases List.mem_cons.mp hc with he | hc2
          · exact h he.symm
          · exact h2 hc2
        simp only [dictAddName, if_neg h, List.map_cons, hrec, if_neg h2]
        rw [if_neg hno]
        simp

theorem mem_keys_dictAddName {seq nm k : String} {g : List (String × List String)} :
    k ∈ (dictAddName seq nm g).map Prod.fst ↔ k = seq ∨ k ∈ g.map Prod.fst := by
  rw [dictAddName_keys]
  split_ifs with h
  · constructor
    · exact fun hk => Or.inr hk
    · rintro (rfl | hk)
      · exact h
      · exact hk
  · simp [List.mem_append, or_comm]

theorem dictAddName_keys_nodup {seq nm : String} {g : List (String × List String)}
    (h : (g.map Prod.fst).Nodup) : ((dictAddName seq nm g).map Prod.fst).Nodup := by
  rw [dictAddName_keys]
  split_ifs with hmem
  · exact h
  · simp [List.nodup_append, h, hmem]

theorem namesOf_nil (s : String) : namesOf s [] = [] := rfl

theorem namesOf_cons_self (s : String) (nms : List String)
    (rest : List (String × List String)) :
    namesOf s ((s, nms) :: rest) = nms := by
  simp [namesOf, List.lookup_cons]

theorem namesOf_cons_ne {s k : String} (h : s ≠ k) (nms : List String)
    (rest : List (String × List String)) :
    namesOf s ((k, nms) :: rest) = namesOf s rest := by
  simp [namesOf, List.lookup_cons, beq_false_of_ne h]

theorem namesOf_dictAddName_other {s seq : String} (hne : s ≠ seq) (nm : String) :
    ∀ g : List (String × List String), namesOf s (dictAddName seq nm g) = namesOf s g
  | [] => by
    rw [dictAddName, namesOf_cons_ne hne]
  | (k, nms) :: rest => by
    by_cases h : k = seq
    · subst h
      rw [dictAddName, if_pos rfl, namesOf_cons_ne hne, namesOf_cons_ne hne]
    · by_cases h2 : s = k
      · subst h2
        rw [dictAddName, if_neg h, namesOf_cons_self, namesOf_cons_self]
      · rw [dictAddName, if_neg h, namesOf_cons_ne h2, namesOf_cons_ne h2,
          namesOf_dictAddName_other hne nm rest]

theorem mem_namesOf_dictAddName_self {seq nm : String} :
    ∀ (g : List (String × List String)) (x : String),
      x ∈ namesOf seq (dictAddName seq nm g) ↔ x ∈ namesOf seq g ∨ x = nm
  | [], x => by
    rw [dictAddName, namesOf_cons_self, namesOf_nil]
    simp
  | (k, nms) :: rest, x => by
    by_cases h : k = seq
    · subst h
      rw [dictAddName, if_pos rfl, namesOf_cons_self, namesOf_cons_self]
      by_cases hmem : nm ∈ nms
      · rw [if_pos hmem]
        constructor
        · exact fun hx => Or.inl hx
        · rintro (hx | rfl)
          · exact hx
          · exact hmem
      · rw [if_neg hmem]
        simp [List.mem_append]
    · have hks : seq ≠ k := fun he => h he.symm
      rw [dictAddName, if_neg h, namesOf_cons_ne hks, namesOf_cons_ne hks]
      exact mem_namesOf_dictAddName_self rest x

theorem dictAddName_nms_prop {seq nm : String} {g : List (String × List String)}
    (h : ∀ e ∈ g, e.2 ≠ [] ∧ e.2.Nodup) :
    ∀ e ∈ dictAddName seq nm g, e.2 ≠ [] ∧ e.2.Nodup := by
  induction g with
  | nil =>
    intro e he
    rw [dictAddName] at he
    rcases List.mem_cons.mp he with rfl | he2
    · exact ⟨by simp, List.nodup_singleton nm⟩
    · exact absurd he2 (List.not_mem_nil e)
  | cons p rest ih =>
    obtain ⟨k, nms⟩ := p
    intro e he
    by_cases hk : k = seq
    · subst hk
      rw [dictAddName, if_pos rfl] at he
      rcases List.mem_cons.mp he with rfl | he2
      · by_cases hmem : nm ∈ nms
        · rw [if_pos hmem]
          exact h (k, nms) (List.mem_cons_self _ _)
        · rw [if_neg hmem]
          rcases h (k, nms) (List.mem_cons_self _ _) with ⟨_, hnd⟩
          refine ⟨by simp, ?_⟩
          simp [List.nodup_append, hnd, hmem]
      · exact h e (List.mem_cons_of_mem _ he2)
    · rw [dictAddName, if_neg hk] at he
      rcases List.mem_cons.mp he with rfl | he2
      · exact h (k, nms) (List.mem_cons_self _ _)
      · exact ih (fun e2 he3 => h e2 (List.mem_cons_of_mem _ he3)) e he2

theorem groupRecordsFrom_cons (g : List (String × List String)) (r : String × String)
    (recs : List (String × String)) :
    groupRecordsFrom g (r :: recs) = groupRecordsFrom (dictAddName r.2 r.1 g) recs := rfl

theorem mem_namesOf_groupRecordsFrom :
    ∀ (recs : List (String × String)) (g : List (String × List String)) (x s : String),
      x ∈ namesOf s (groupRecordsFrom g recs) ↔ (x, s) ∈ recs ∨ x ∈ namesOf s g
  | [], g, x, s => by simp [groupRecordsFrom]
  | r :: recs, g, x, s => by
    obtain ⟨rn, rs⟩ := r
    rw [groupRecordsFrom_cons, mem_namesOf_groupRecordsFrom recs]
    by_cases hs : s = rs
    · subst hs
      rw [mem_namesOf_dictAddName_self]
      simp only [List.mem_cons, Prod.mk.injEq]
      constructor
      · rintro (hr | hx | rfl)
        · exact Or.inl (Or.inr hr)
        · exact Or.inr hx
        · exact Or.inl (Or.inl ⟨rfl, trivial⟩)
      · rintro ((⟨rfl, _⟩ | hr) | hx)
        · exact Or.inr (Or.inr rfl)
        · exact Or.inl hr
        · exact Or.inr (Or.inl hx)
    · rw [namesOf_dictAddName_other hs]
      simp only [List.mem_cons, Prod.mk.injEq]
      constructor
      · rintro (hr | hx)
        · exact Or.inl (Or.inr hr)
        · exact Or.inr hx
      · rintro ((⟨_, hss⟩ | hr) | hx)
        · exact absurd hss hs
        · exact Or.inl hr
        · exact Or.inr hx

theorem mem_namesOf_groupRecords (recs : List (String × String)) (x s : String) :
    x ∈ namesOf s (groupRecords recs) ↔ (x, s) ∈ recs := by
  rw [groupRecords, mem_namesOf_groupRecordsFrom]
  simp [namesOf_nil]

theorem mem_keys_groupRecordsFrom :
    ∀ (recs : List (String × String)) (g : List (String × List String)) (s : String),
      s ∈ (groupRecordsFrom g recs).map Prod.fst ↔
        (∃ x, (x, s) ∈ recs) ∨ s ∈ g.map Prod.fst
  | [], g, s => by simp [groupRecordsFrom]
  | r :: recs, g, s => by
    obtain ⟨rn, rs⟩ := r
    rw [groupRecordsFrom_cons, mem_keys_groupRecordsFrom recs, mem_keys_dictAddName]
    simp only [List.mem_cons, Prod.mk.injEq]
    constructor
    · rintro (⟨x, hx⟩ | rfl | hk)
      · exact Or.inl ⟨x, Or.inr hx⟩
      · exact Or.inl ⟨rn, Or.inl ⟨rfl, rfl⟩⟩
      · exact Or.inr hk
    · rintro (⟨x, ⟨_, rfl⟩ | hx⟩ | hk)
      · exact Or.inr (Or.inl rfl)
      · exact Or.inl ⟨x, hx⟩
      · exact Or.inr (Or.inr hk)

theorem mem_keys_groupRecords (recs : List (String × String)) (s : String) :
    s ∈ (groupRecords recs).map Prod.fst ↔ ∃ x, (x, s) ∈ recs := by
  rw [groupRecords, mem_keys_groupRecordsFrom]
  simp

theorem groupRecordsFrom_keys_nodup :
    ∀ (recs : List (String × String)) {g : List (String × List String)},
      (g.map Prod.fst).Nodup → ((groupRecordsFrom g recs).map Prod.fst).Nodup
  | [], _, h => h
  | r :: recs, g, h => by
    rw [groupRecordsFrom_cons]
    exact groupRecordsFrom_keys_nodup recs (dictAddName_keys_nodup h)

theorem groupRecords_keys_nodup (recs : List (String × String)) :
    ((groupRecords recs).map Prod.fst).Nodup :=
  groupRecordsFrom_keys_nodup recs List.nodup_nil

theorem groupRecordsFrom_nms_prop :
    ∀ (recs : List (String × String)) {g : List (String × List String)},
      (∀ e ∈ g, e.2 ≠ [] ∧ e.2.Nodup) →
      ∀ e ∈ groupRecordsFrom g recs, e.2 ≠ [] ∧ e.2.Nodup
  | [], _, h => h
  | r :: recs, g, h => by
    rw [groupRecordsFrom_cons]
    exact groupRecordsFrom_nms_prop recs (dictAddName_nms_prop h)

theorem groupRecords_nms_prop (recs : List (String × String)) :
    ∀ e ∈ groupRecords recs, e.2 ≠ [] ∧ e.2.Nodup :=
  groupRecordsFrom_nms_prop recs (by simp)

/-- An association list with duplicate-free keys is determined by its keys and
its lookups. -/
theorem assoc_eq_keys_map :
    ∀ (g : List (String × List String)), (g.map Prod.fst).Nodup →
      g = (g.map Prod.fst).map (fun s => (s, namesOf s g))
  | [], _ => rfl
  | (s, nms) :: rest, h => by
    rw [List.map_cons] at h
    rcases List.nodup_cons.mp h with ⟨hs, hrest⟩
    have h2 : (rest.map Prod.fst).map (fun k => (k, namesOf k ((s, nms) :: rest)))
        = (rest.map Prod.fst).map (fun k => (k, namesOf k rest)) := by
      apply List.map_congr_left
      intro k hk
      have hne : k ≠ s := fun he => hs (he ▸ hk)
      rw [namesOf_cons_ne hne]
    have htail : rest = (rest.map Prod.fst).map (fun k => (k, namesOf k ((s, nms) :: rest))) := by
      rw [h2]
      exact assoc_eq_keys_map rest hrest
    calc (s, nms) :: rest
        = (s, namesOf s ((s, nms) :: rest))
            :: (rest.map Prod.fst).map (fun k => (k, namesOf k ((s, nms) :: rest))) := by
          rw [namesOf_cons_self, ← htail]
      _ = (((s, nms) :: rest).map Prod.fst).map
            (fun k => (k, namesOf k ((s, nms) :: rest))) := by
          simp only [List.map_cons]

/-! ### The loader factors through the records it assembles -/

theorem groupRecordsFrom_append (g : List (String × List String))
    (r1 r2 : List (String × String)) :
    groupRecordsFrom g (r1 ++ r2) = groupRecordsFrom (groupRecordsFrom g r1) r2 := by
  simp [groupRecordsFrom, List.foldl_append]

theorem groupRecordsFrom_flush (nm : Option String) (seq : List String)
    (g : List (String × List String)) :
    groupRecordsFrom g (flushRecord nm seq) = add_seq nm (String.join seq) g := by
  cases nm <;> rfl

theorem load_seqsAux_eq :
    ∀ (lines : List String) (nm : Option String) (seq : List String)
      (g : List (String × List String)),
      load_seqsAux nm seq g lines = groupRecordsFrom g (parseRecordsAux nm seq lines)
  | [], nm, seq, g => (groupRecordsFrom_flush nm seq g).symm
  | line :: rest, nm, seq, g => by
    by_cases h : pyStartsWith line ">"
    · rw [load_seqsAux, if_pos h, parseRecordsAux, if_pos h, groupRecordsFrom_append,
        groupRecordsFrom_flush, load_seqsAux_eq rest]
    · rw [load_seqsAux, if_neg h, parseRecordsAux, if_neg h, load_seqsAux_eq rest]

theorem load_seqs_eq_groupRecords (lines : List String) :
    load_seqs lines = groupRecords (parseRecords lines) :=
  load_seqsAux_eq lines none [] []

theorem parseRecordsAux_none_seq_irrel :
    ∀ (lines : List String) (seq seq2 : List String),
      parseRecordsAux none seq lines = parseRecordsAux none seq2 lines
  | [], _, _ => rfl
  | line :: rest, seq, seq2 => by
    by_cases h : pyStartsWith line ">"
    · rw [parseRecordsAux, if_pos h, parseRecordsAux, if_pos h]
      rfl
    · rw [parseRecordsAux, if_neg h, parseRecordsAux, if_neg h,
        parseRecordsAux_none_seq_irrel rest]

theorem parseRecords_drop_junk :
    ∀ (junk : List String), (∀ l ∈ junk, pyStartsWith l ">" = false) →
      ∀ lines : List String, parseRecords (junk ++ lines) = parseRecords lines
  | [], _, lines => rfl
  | j :: junk, h, lines => by
    have hj : ¬ pyStartsWith j ">" = true := by
      rw [h j (List.mem_cons_self j junk)]
      exact Bool.false_ne_true
    rw [parseRecords, List.cons_append, parseRecordsAux, if_neg hj,
      parseRecordsAux_none_seq_irrel (junk ++ lines) _ []]
    exact parseRecords_drop_junk junk (fun l hl => h l (List.mem_cons_of_mem j hl)) lines

theorem load_seqs_drop_junk (junk lines : List String)
    (h : ∀ l ∈ junk, pyStartsWith l ">" = false) :
    load_seqs (junk ++ lines) = load_seqs lines := by
  rw [load_seqs_eq_groupRecords, load_seqs_eq_groupRecords,
    parseRecords_drop_junk junk h lines]

/-! ### The representatives dict -/

theorem dictSet_keys (k v : String) :
    ∀ d : List (String × String),
      (dictSet k v d).map Prod.fst =
        if k ∈ d.map Prod.fst then d.map Prod.fst else d.map Prod.fst ++ [k]
  | [] => by simp [dictSet]
  | (k1, v1) :: rest => by
    by_cases h : k1 = k
    · subst h
      simp [dictSet]
    · have hrec := dictSet_keys k v rest
      by_cases h2 : k ∈ rest.map Prod.fst
      · simp only [dictSet, if_neg h, List.map_cons, hrec, if_pos h2]
        rw [if_pos (List.mem_cons_of_mem k1 h2)]
      · have hno : k ∉ k1 :: rest.map Prod.fst := by
          intro hc
          rcases List.mem_cons.mp hc with he | hc2
          · exact h he.symm
          · exact h2 hc2
        simp only [dictSet, if_neg h, List.map_cons, hrec, if_neg h2]
        rw [if_neg hno]
        simp

theorem mem_keys_dictSet {k v k2 : String} {d : List (String × String)} :
    k2 ∈ (dictSet k v d).map Prod.fst ↔ k2 = k ∨ k2 ∈ d.map Prod.fst := by
  rw [dictSet_keys]
  split_ifs with h
  · constructor
    · exact fun hk => Or.inr hk
    · rintro (rfl | hk)
      · exact h
      · exact hk
  · simp [List.mem_append, or_comm]

theorem dictSet_keys_nodup {k v : String} {d : List (String × String)}
    (h : (d.map Prod.fst).Nodup) : ((dictSet k v d).map Prod.fst).Nodup := by
  rw [dictSet_keys]
  split_ifs with hmem
  · exact h
  · simp [List.nodup_append, h, hmem]

theorem dictSet_length (k v : String) :
    ∀ d : List (String × String),
      (dictSet k v d).length = if k ∈ d.map Prod.fst then d.length else d.length + 1
  | [] => by simp [dictSet]
  | (k1, v1) :: rest => by
    by_cases h : k1 = k
    · subst h
      simp [dictSet]
    · have hrec := dictSet_length k v rest
      by_cases h2 : k ∈ rest.map Prod.fst
      · simp only [dictSet, if_neg h, List.length_cons, hrec, if_pos h2]
        rw [if_pos (by simp [List.mem_cons, h2])]
      · have hno : k ∉ ((k1, v1) :: rest).map Prod.fst := by
          intro hc
          rcases List.mem_cons.mp hc with he | hc2
          · exact h he.symm
          · exact h2 hc2
        simp only [dictSet, if_neg h, List.length_cons, hrec, if_neg h2]
        rw [if_neg hno]

theorem dictSet_absent {k : String} (v : String) :
    ∀ {d : List (String × String)}, k ∉ d.map Prod.fst → dictSet k v d = d ++ [(k, v)]
  | [], _ => rfl
  | (k1, v1) :: rest, h => by
    have h1 : k1 ≠ k := by
      intro he
      exact h (by simp [he])
    rw [dictSet, if_neg h1, dictSet_absent v (fun hc => h (by simp [hc])), List.cons_append]

theorem lookup_dictSet_self (k v : String) :
    ∀ d : List (String × String), List.lookup k (dictSet k v d) = some v
  | [] => by simp [dictSet]
  | (k1, v1) :: rest => by
    by_cases h : k1 = k
    · subst h
      rw [dictSet, if_pos rfl]
      simp [List.lookup_cons]
    · rw [dictSet, if_neg h, List.lookup_cons]
      have : (k == k1) = false := beq_false_of_ne (fun he => h he.symm)
      rw [this]
      exact lookup_dictSet_self k v rest

theorem lookup_dictSet_other {k k2 : String} (hne : k2 ≠ k) (v : String) :
    ∀ d : List (String × String), List.lookup k2 (dictSet k v d) = List.lookup k2 d
  | [] => by
    rw [dictSet, List.lookup_cons]
    simp [beq_false_of_ne hne]
  | (k1, v1) :: rest => by
    by_cases h : k1 = k
    · subst h
      rw [dictSet, if_pos rfl, List.lookup_cons, List.lookup_cons]
      cases hb : k2 == k1
      · rfl
      · exact absurd (eq_of_beq hb) hne
    · rw [dictSet, if_neg h, List.lookup_cons, List.lookup_cons]
      cases hb : k2 == k1
      · exact lookup_dictSet_other hne v rest
      · rfl

theorem lastAssoc_from (r : String) :
    ∀ (ps : List (String × String)) (acc : Option String),
      ps.foldl (fun acc p => if p.1 = r then some p.2 else acc) acc =
        match lastAssoc r ps with
        | some v => some v
        | none => acc
  | [], acc => rfl
  | p :: ps, acc => by
    have h1 := lastAssoc_from r ps (if p.1 = r then some p.2 else acc)
    have h2 : lastAssoc r (p :: ps) =
        match lastAssoc r ps with
        | some v => some v
        | none => (if p.1 = r then some p.2 else none) := by
      rw [lastAssoc, List.foldl_cons]
      exact lastAssoc_from r ps _
    rw [List.foldl_cons, h1, h2]
    cases lastAssoc r ps with
    | some v => rfl
    | none =>
      by_cases hp : p.1 = r
      · rw [if_pos hp, if_pos hp]
      · rw [if_neg hp, if_neg hp]

theorem lookup_foldDict (r : String) :
    ∀ (ps : List (String × String)) (d : List (String × String)),
      List.lookup r (ps.foldl (fun d p => dictSet p.1 p.2 d) d) =
        match lastAssoc r ps with
        | some v => some v
        | none => List.lookup r d
  | [], d => rfl
  | p :: ps, d => by
    have h2 : lastAssoc r (p :: ps) =
        match lastAssoc r ps with
        | some v => some v
        | none => (if p.1 = r then some p.2 else none) := by
      rw [lastAssoc, List.foldl_cons]
      exact lastAssoc_from r ps _
    rw [List.foldl_cons, lookup_foldDict r ps, h2]
    cases lastAssoc r ps with
    | some v => rfl
    | none =>
      by_cases hp : p.1 = r
      · rw [if_pos hp, ← hp, lookup_dictSet_self]
      · rw [if_neg hp, lookup_dictSet_other (fun he => hp he.symm)]

theorem lastAssoc_eq_filter (r : String) :
    ∀ (ps : List (String × String)) (acc : Option String),
      ps.foldl (fun acc p => if p.1 = r then some p.2 else acc) acc =
        ((ps.filter (fun p => decide (p.1 = r))).map Prod.snd).foldl
          (fun _ v => some v) acc
  | [], _ => rfl
  | p :: ps, acc => by
    by_cases hp : p.1 = r
    · rw [List.foldl_cons, if_pos hp, List.filter_cons_of_pos (by simp [hp]),
        List.map_cons, List.foldl_cons]
      exact lastAssoc_eq_filter r ps (some p.2)
    · rw [List.foldl_cons, if_neg hp, List.filter_cons_of_neg (by simp [hp])]
      exact lastAssoc_eq_filter r ps acc

theorem foldDict_length_le :
    ∀ (ps : List (String × String)) (d : List (String × String)),
      (ps.foldl (fun d p => dictSet p.1 p.2 d) d).length ≤ d.length + ps.length
  | [], d => Nat.le_refl _
  | p :: ps, d => by
    rw [List.foldl_cons]
    have h1 := foldDict_length_le ps (dictSet p.1 p.2 d)
    have h2 : (dictSet p.1 p.2 d).length ≤ d.length + 1 := by
      rw [dictSet_length]
      split_ifs <;> omega
    simp only [List.length_cons]
    omega

theorem foldDict_length_lt :
    ∀ (ps : List (String × String)) (d : List (String × String)),
      ((∃ p ∈ ps, p.1 ∈ d.map Prod.fst) ∨ ¬ (ps.map Prod.fst).Nodup) →
      (ps.foldl (fun d p => dictSet p.1 p.2 d) d).length < d.length + ps.length
  | [], d, h => by
    rcases h with ⟨p, hp, _⟩ | h
    · exact absurd hp (List.not_mem_nil p)
    · exact absurd List.nodup_nil h
  | p :: ps, d, h => by
    rw [List.foldl_cons]
    simp only [List.length_cons]
    by_cases hpd : p.1 ∈ d.map Prod.fst
    · have hlen : (dictSet p.1 p.2 d).length = d.length := by
        rw [dictSet_length, if_pos hpd]
      have := foldDict_length_le ps (dictSet p.1 p.2 d)
      omega
    · have hstep : (dictSet p.1 p.2 d).length = d.length + 1 := by
        rw [dictSet_length, if_neg hpd]
      have hrec : (∃ q ∈ ps, q.1 ∈ (dictSet p.1 p.2 d).map Prod.fst) ∨
          ¬ (ps.map Prod.fst).Nodup := by
        rcases h with ⟨q, hq, hqk⟩ | hnd
        · rcases List.mem_cons.mp hq with rfl | hq2
          · exact absurd hqk hpd
          · exact Or.inl ⟨q, hq2, mem_keys_dictSet.mpr (Or.inr hqk)⟩
        · rw [List.map_cons, List.nodup_cons] at hnd
          by_cases hmem : p.1 ∈ ps.map Prod.fst
          · rcases List.mem_map.mp hmem with ⟨q, hq, hqe⟩
            exact Or.inl ⟨q, hq, mem_keys_dictSet.mpr (Or.inl hqe)⟩
          · exact Or.inr (fun hc => hnd ⟨hmem, hc⟩)
      have := foldDict_length_lt ps (dictSet p.1 p.2 d) hrec
      omega

/-! ### The clustering loop -/

theorem mkCluster_eq_some {p : String × List String} (preferred : List String)
    (h : p.2 ≠ []) : mkCluster preferred p = some (clusterOf preferred p) := by
  rw [mkCluster, select_repr_isSome preferred h]
  rfl

theorem mkCluster_nil_eq_none (preferred : List String) (s : String) :
    mkCluster preferred (s, []) = none := rfl

theorem buildClusters_of_nonempty (preferred : List String) :
    ∀ seqs : List (String × List String), (∀ p ∈ seqs, p.2 ≠ []) →
      buildClusters preferred seqs = some (seqs.map (clusterOf preferred))
  | [], _ => rfl
  | p :: seqs, h => by
    rw [buildClusters, List.mapM_cons,
      mkCluster_eq_some preferred (h p (List.mem_cons_self p seqs))]
    have hrec := buildClusters_of_nonempty preferred seqs
      (fun q hq => h q (List.mem_cons_of_mem p hq))
    rw [buildClusters] at hrec
    rw [hrec]
    rfl

theorem buildClusters_some_imp {preferred : List String} :
    ∀ {seqs : List (String × List String)} {cs : List ClusterT},
      buildClusters preferred seqs = some cs →
      (∀ p ∈ seqs, p.2 ≠ []) ∧ cs = seqs.map (clusterOf preferred)
  | [], cs, h => by
    refine ⟨by simp, ?_⟩
    rw [buildClusters, List.mapM_nil] at h
    exact (Option.some_inj.mp h).symm
  | p :: seqs, cs, h => by
    rw [buildClusters, List.mapM_cons] at h
    cases hm : mkCluster preferred p with
    | none => rw [hm] at h; exact Option.noConfusion h
    | some c =>
      rw [hm] at h
      cases hrest : List.mapM (mkCluster preferred) seqs with
      | none => rw [hrest] at h; exact Option.noConfusion h
      | some cs2 =>
        rw [hrest] at h
        have hcs : cs = c :: cs2 := by
          simpa using h.symm
        have hne : p.2 ≠ [] := by
          intro he
          obtain ⟨s, _⟩ := p
          simp only at he
          subst he
          rw [mkCluster_nil_eq_none] at hm
          exact Option.noConfusion hm
        rcases buildClusters_some_imp hrest with ⟨hall, hmap⟩
        refine ⟨?_, ?_⟩
        · intro q hq
          rcases List.mem_cons.mp hq with rfl | hq2
          · exact hne
          · exact hall q hq2
        · rw [hcs, hmap, List.map_cons]
          have : c = clusterOf preferred p := by
            rw [mkCluster_eq_some preferred hne] at hm
            exact (Option.some_inj.mp hm).symm
          rw [this]

theorem buildClusters_length {preferred : List String} {seqs : List (String × List String)}
    {cs : List ClusterT} (h : buildClusters preferred seqs = some cs) :
    cs.length = seqs.length := by
  rcases buildClusters_some_imp h with ⟨_, rfl⟩
  simp

theorem foldDict_keys_nodup :
    ∀ (ps : List (String × String)) (d : List (String × String)),
      (d.map Prod.fst).Nodup →
      ((ps.foldl (fun d p => dictSet p.1 p.2 d) d).map Prod.fst).Nodup
  | [], _, h => h
  | p :: ps, d, h => by
    rw [List.foldl_cons]
    exact foldDict_keys_nodup ps (dictSet p.1 p.2 d) (dictSet_keys_nodup h)

theorem mem_namesOf_iff :
    ∀ {g : List (String × List String)}, (g.map Prod.fst).Nodup → ∀ (x s : String),
      (x ∈ namesOf s g ↔ ∃ e ∈ g, e.1 = s ∧ x ∈ e.2)
  | [], _, x, s => by simp [namesOf_nil]
  | (k, nms) :: rest, h, x, s => by
    rw [List.map_cons] at h
    rcases List.nodup_cons.mp h with ⟨hk, hrest⟩
    by_cases hs : s = k
    · subst hs
      rw [namesOf_cons_self]
      constructor
      · intro hx
        exact ⟨(s, nms), List.mem_cons_self _ _, rfl, hx⟩
      · rintro ⟨e, he, he1, hx⟩
        rcases List.mem_cons.mp he with rfl | he2
        · exact hx
        · have hin : e.1 ∈ rest.map Prod.fst := List.mem_map.mpr ⟨e, he2, rfl⟩
          rw [he1] at hin
          exact absurd hin hk
    · rw [namesOf_cons_ne hs]
      rw [mem_namesOf_iff hrest x s]
      constructor
      · rintro ⟨e, he, he1, hx⟩
        exact ⟨e, List.mem_cons_of_mem _ he, he1, hx⟩
      · rintro ⟨e, he, he1, hx⟩
        rcases List.mem_cons.mp he with rfl | he2
        · exact absurd he1.symm hs
        · exact ⟨e, he2, he1, hx⟩

/-! ### Character upper-casing -/

theorem toNat_ofNat_valid (n : Nat) (h1 : 65 ≤ n) (h2 : n ≤ 90) :
    (Char.ofNat n).toNat = n := by
  interval_cases n <;> decide

theorem upperChar_idem (c : Char) : upperChar (upperChar c) = upperChar c := by
  have hunfold : ∀ d : Char, upperChar d =
      if 97 ≤ d.toNat ∧ d.toNat ≤ 122 then Char.ofNat (d.toNat - 32) else d :=
    fun _ => rfl
  by_cases h : 97 ≤ c.toNat ∧ c.toNat ≤ 122
  · have hval : (upperChar c).toNat = c.toNat - 32 := by
      rw [hunfold c, if_pos h]
      exact toNat_ofNat_valid _ (by omega) (by omega)
    have hno : ¬ (97 ≤ (upperChar c).toNat ∧ (upperChar c).toNat ≤ 122) := by
      rw [hval]
      omega
    rw [hunfold (upperChar c), if_neg hno]
  · have he : upperChar c = c := by rw [hunfold c, if_neg h]
    rw [he]
    exact he

theorem pyUpper_idem (s : String) : pyUpper (pyUpper s) = pyUpper s := by
  show (⟨(s.data.map upperChar).map upperChar⟩ : String) = ⟨s.data.map upperChar⟩
  rw [List.map_map]
  refine congrArg String.mk ?_
  exact List.map_congr_left (fun c _ => upperChar_idem c)

/-! ### The claims -/

/-- C5: for every non-empty Group, the representative selection completes
without error (the `sorted(...)[0]` indexing never sees an empty list, so the
result is `some`) and the returned Representative is a member of the Group's
name set. -/
theorem C5_representative_safe (nms preferred : List String) (putative_tag : String)
    (h : nms ≠ []) :
    ∃ r, select_repr nms preferred putative_tag = some r ∧ r ∈ nms := by
  rcases select_repr_spec preferred putative_tag h with ⟨r, hr, hmem, _⟩
  exact ⟨r, hr, specCandidates_subset r hmem⟩

theorem C5_witness :
    ∃ r, select_repr ["BP", "A"] [] "P" = some r ∧ r ∈ ["BP", "A"] :=
  C5_representative_safe ["BP", "A"] [] "P" (by decide)

/-- C2: for every non-empty set of Names and every preferred set, the selected
representative is the minimum under the key `(length, lexicographic value)`
over the candidate set of spec §4.3: the intersection with `preferred` when
non-empty, else the names not ending with the putative suffix when non-empty,
else all names. -/
theorem C2_representative_minimum (nms preferred : List String) (putative_tag : String)
    (h : nms ≠ []) :
    ∃ r, select_repr nms preferred putative_tag = some r ∧
      r ∈ specCandidates nms preferred putative_tag ∧
      ∀ x ∈ specCandidates nms preferred putative_tag,
        r.length < x.length ∨ (r.length = x.length ∧ (r = x ∨ strLt r x)) := by
  rcases select_repr_spec preferred putative_tag h with ⟨r, hr, hmem, hmin⟩
  refine ⟨r, hr, hmem, ?_⟩
  intro x hx
  have hnl := hmin x hx
  by_cases he : r = x
  · subst he
    exact Or.inr ⟨rfl, Or.inl rfl⟩
  · rcases shLt_connex r x he with hlt | hlt
    · rcases hlt with hl | ⟨hl, hs⟩
      · exact Or.inl hl
      · exact Or.inr ⟨hl, Or.inr hs⟩
    · exact absurd hlt hnl

theorem C2_witness :
    ∃ r, select_repr ["BBP", "CC", "A"] ["CC"] "P" = some r ∧
      r ∈ specCandidates ["BBP", "CC", "A"] ["CC"] "P" ∧
      ∀ x ∈ specCandidates ["BBP", "CC", "A"] ["CC"] "P",
        r.length < x.length ∨ (r.length = x.length ∧ (r = x ∨ strLt r x)) :=
  C2_representative_minimum ["BBP", "CC", "A"] ["CC"] "P" (by decide)

/-- C6: the checksum the engine records is stable under letter case — two
sequences equal up to upper-casing get the same checksum, and a sequence and
its uppercased form get the same checksum. -/
theorem C6_checksum_case_stable :
    (∀ s t : String, pyUpper s = pyUpper t → engineChecksum s = engineChecksum t) ∧
    (∀ s : String, engineChecksum s = engineChecksum (pyUpper s)) := by
  constructor
  · intro s t h
    rw [engineChecksum, engineChecksum, h]
  · intro s
    rw [engineChecksum, engineChecksum, pyUpper_idem]

theorem C6_witness :
    engineChecksum "mAaA" = engineChecksum "Maaa" ∧
    engineChecksum "XY" = engineChecksum (pyUpper "XY") :=
  ⟨C6_checksum_case_stable.1 "mAaA" "Maaa" (by decide), C6_checksum_case_stable.2 "XY"⟩

/-- C8 counterexample: a blank line does contribute to the preferred set —
`load_nms` adds the empty string for it, while the set of stripped
non-comment, non-empty lines (the claim's description) does not contain it. -/
theorem C8_counterexample :
    "" ∈ load_nms ["", "#c", "x"] ∧ "" ∉ specPreferredSet ["", "#c", "x"] := by
  decide

/-- C8 (amended): the preferred set loaded from the preference list is exactly
the set of stripped non-comment lines of the file — comment lines beginning
with `#` contribute nothing, but a blank line contributes the empty string —
and when no preference file is supplied the preferred set is empty and this
is not an error. -/
theorem C8_preferred_set :
    (∀ (inlist : List String) (x : String),
        x ∈ load_nms inlist ↔ ∃ l ∈ inlist, pyStartsWith l "#" = false ∧ pyStrip l = x) ∧
    preferredOf none = [] := by
  constructor
  · intro inlist x
    simp only [load_nms, List.mem_map, List.mem_filter, Bool.not_eq_true']
    constructor
    · rintro ⟨l, ⟨hl, hc⟩, hstrip⟩
      exact ⟨l, hl, hc, hstrip⟩
    · rintro ⟨l, hl, hc, hstrip⟩
      exact ⟨l, ⟨hl, hc⟩, hstrip⟩
  · rfl

theorem C8_witness :
    "x" ∈ load_nms ["  x  ", "#c"] ∧ preferredOf none = [] :=
  ⟨(C8_preferred_set.1 ["  x  ", "#c"] "x").mpr ⟨"  x  ", by decide, by decide, by decide⟩,
   C8_preferred_set.2⟩

/-- C10: if a Group whose Sequence is the empty string reaches the emitter,
the de-duplicated sequence file still contains a record for it — the header
line with its Representative name followed by a single blank line and no
sequence lines; emission does not fail and does not skip the group. -/
theorem C10_empty_sequence_record (width : Nat) (reprs : List (String × String))
    (name : String) (hw : 0 < width) (h : (name, "") ∈ reprs) :
    ∃ pre post, write_seqs width reprs = pre ++ [">" ++ name, ""] ++ post := by
  have hmem : (name, "") ∈ pySorted pairLt reprs :=
    (pySorted_perm pairLt reprs).mem_iff.mpr h
  rcases List.append_of_mem hmem with ⟨l1, l2, he⟩
  refine ⟨l1.flatMap (seqRecordLines width), l2.flatMap (seqRecordLines width), ?_⟩
  rw [write_seqs, he, List.flatMap_append, List.flatMap_cons]
  have hrec : seqRecordLines width (name, "") = [">" ++ name, ""] := by
    have hwrap : wrapChunks width "" = [] := by
      simp [wrapChunks, chunksOf]
    rw [seqRecordLines, hwrap]
    rfl
  rw [hrec]
  simp

theorem C10_witness :
    ∃ pre post, write_seqs 80 [("A", "")] = pre ++ [">" ++ "A", ""] ++ post :=
  C10_empty_sequence_record 80 [("A", "")] "A" (by decide) (by decide)

/-- C3 counterexample: a record whose assembled Sequence is empty does
contribute to the mapping — `load_seqs` groups the name `A` under the empty
sequence for the input `>A`, `>B`, `X`, contradicting the claim that such a
record contributes nothing. -/
theorem C3_counterexample :
    ∃ g ∈ load_seqs [">A", ">B", "X"], g.1 = "" ∧ "A" ∈ g.2 := by
  decide

/-- C3 (amended): the Groups produced by the loader are keyed by pairwise
distinct Sequences — the empty sequence included — with non-empty,
duplicate-free memberships; a Name belongs to the Group of a Sequence exactly
when the input assembles a record with that Name and that Sequence (so a
record with an empty assembled Sequence contributes its Name to the
empty-Sequence Group); and continuation lines preceding the first header
contribute nothing. -/
theorem C3_loader_groups :
    (∀ (lines : List String) (x s : String),
        (∃ g ∈ load_seqs lines, g.1 = s ∧ x ∈ g.2) ↔ (x, s) ∈ parseRecords lines) ∧
    (∀ lines : List String, ((load_seqs lines).map Prod.fst).Nodup) ∧
    (∀ lines : List String, ∀ g ∈ load_seqs lines, g.2 ≠ [] ∧ g.2.Nodup) ∧
    (∀ junk lines : List String, (∀ l ∈ junk, pyStartsWith l ">" = false) →
      load_seqs (junk ++ lines) = load_seqs lines) := by
  have hnd : ∀ lines : List String, ((load_seqs lines).map Prod.fst).Nodup := by
    intro lines
    rw [load_seqs_eq_groupRecords]
    exact groupRecords_keys_nodup (parseRecords lines)
  refine ⟨?_, hnd, ?_, ?_⟩
  · intro lines x s
    rw [← mem_namesOf_iff (hnd lines) x s, load_seqs_eq_groupRecords,
      mem_namesOf_groupRecords]
  · intro lines
    rw [load_seqs_eq_groupRecords]
    exact groupRecords_nms_prop (parseRecords lines)
  · intro junk lines h
    exact load_seqs_drop_junk junk lines h

theorem C3_witness :
    (("A", "QQ") ∈ parseRecords [">A", "QQ"]) ∧
    load_seqs ["junkline", ">B", "HH"] = load_seqs [">B", "HH"] :=
  ⟨(C3_loader_groups.1 [">A", "QQ"] "A" "QQ").mp ⟨("QQ", ["A"]), by decide, by decide, by decide⟩,
   C3_loader_groups.2.2.2 ["junkline"] [">B", "HH"] (by decide)⟩

/-- C9: when two distinct Groups select the same Representative name, the
`reprs` dict keeps a single record under that name holding the sequence of
the Group processed later, so the de-duplicated sequence file has fewer
records than there are Groups. -/
theorem C9_repr_collision (preferred : List String) (seqs : List (String × List String))
    (cs : List ClusterT) (r s1 s2 : String)
    (h : buildClusters preferred seqs = some cs)
    (hsel : (((cs.zip seqs).map (fun pc => (pc.1.reprNm, pc.2.1))).filter
        (fun p => decide (p.1 = r))).map Prod.snd = [s1, s2]) :
    ((reprsDict cs seqs).map Prod.fst).Nodup ∧
    List.lookup r (reprsDict cs seqs) = some s2 ∧
    (reprsDict cs seqs).length < seqs.length := by
  have hfold : reprsDict cs seqs =
      ((cs.zip seqs).map (fun pc => (pc.1.reprNm, pc.2.1))).foldl
        (fun d p => dictSet p.1 p.2 d) [] := by
    rw [reprsDict, List.foldl_map]
  set ps := (cs.zip seqs).map (fun pc => (pc.1.reprNm, pc.2.1)) with hps
  refine ⟨?_, ?_, ?_⟩
  · rw [hfold]
    exact foldDict_keys_nodup ps [] (by simp)
  · rw [hfold, lookup_foldDict]
    have hla : lastAssoc r ps = some s2 := by
      rw [lastAssoc, lastAssoc_eq_filter, hsel]
      rfl
    rw [hla]
  · have hlen2 : (ps.filter (fun p => decide (p.1 = r))).length = 2 := by
      have := congrArg List.length hsel
      simpa using this
    obtain ⟨a, b, hl⟩ : ∃ a b, ps.filter (fun p => decide (p.1 = r)) = [a, b] := by
      cases hf : ps.filter (fun p => decide (p.1 = r)) with
      | nil => rw [hf] at hlen2; simp at hlen2
      | cons a t =>
        cases t with
        | nil => rw [hf] at hlen2; simp at hlen2
        | cons b t2 =>
          cases t2 with
          | nil => exact ⟨a, b, rfl⟩
          | cons c t3 => rw [hf] at hlen2; simp at hlen2
    have ha : a.1 = r := by
      have := List.of_mem_filter (hl ▸ List.mem_cons_self a [b])
      exact of_decide_eq_true this
    have hb : b.1 = r := by
      have := List.of_mem_filter (hl ▸ List.mem_cons_of_mem a (List.mem_cons_self b []))
      exact of_decide_eq_true this
    have hcount : ¬ (ps.map Prod.fst).Nodup := by
      intro hnd
      have hsubf : List.Sublist ((ps.filter (fun p => decide (p.1 = r))).map Prod.fst)
          (ps.map Prod.fst) := (List.filter_sublist ps).map Prod.fst
      rw [hl] at hsubf
      have hnd2 : ([a.1, b.1] : List String).Nodup := List.Nodup.sublist hsubf hnd
      rw [ha, hb] at hnd2
      simp at hnd2
    have hlt := foldDict_length_lt ps [] (Or.inr hcount)
    have hlenps : ps.length = seqs.length := by
      rw [hps, List.length_map, List.length_zip, buildClusters_length h]
      exact Nat.min_self _
    rw [hfold]
    simp only [List.length_nil] at hlt ⊢
    omega

theorem reprNm_clusterOf (preferred : List String) (p : String × List String) :
    (clusterOf preferred p).reprNm = reprOf preferred p.2 := rfl

theorem nms_clusterOf (preferred : List String) (p : String × List String) :
    (clusterOf preferred p).nms = p.2 := rfl

/-- On a grouping whose name sets are non-empty and pairwise disjoint, the
chosen representatives are pairwise distinct. -/
theorem clusters_repr_pairwise_ne {preferred : List String}
    {seqs : List (String × List String)} (hne : ∀ p ∈ seqs, p.2 ≠ [])
    (hdisj : seqs.Pairwise (fun p q => ∀ x ∈ p.2, x ∉ q.2)) :
    (seqs.map (clusterOf preferred)).Pairwise (fun c d => c.reprNm ≠ d.reprNm) := by
  rw [List.pairwise_map]
  refine hdisj.imp_of_mem ?_
  intro p q hp hq hpq he
  have h1 : reprOf preferred p.2 ∈ p.2 := reprOf_mem preferred (hne p hp)
  have h2 : reprOf preferred q.2 ∈ q.2 := reprOf_mem preferred (hne q hq)
  rw [reprNm_clusterOf, reprNm_clusterOf] at he
  rw [he] at h1
  exact hpq _ h1 h2

/-- On a list of clusters with pairwise distinct representatives, the Python
tuple comparison agrees with the composite key of spec §4.4. -/
theorem clusterLt_congr_compositeLt {cs : List ClusterT}
    (hrepr : cs.Pairwise (fun c d => c.reprNm ≠ d.reprNm)) :
    ∀ a ∈ cs, ∀ b ∈ cs, (clusterLt a b ↔ compositeLt a b) := by
  intro a ha b hb
  rcases pairwise_two_mem hrepr a ha b hb with rfl | hne2 | hne2
  · exact ⟨fun h => absurd h (clusterLt_irrefl a), fun h => absurd h (compositeLt_irrefl a)⟩
  · exact clusterLt_iff_compositeLt_of_repr_ne hne2
  · exact clusterLt_iff_compositeLt_of_repr_ne (fun he => hne2 he.symm)

/-- C1: for every grouping in which each Name maps to exactly one Sequence
(non-empty, duplicate-free, pairwise disjoint name sets), the ranking stage
orders the Groups exactly by the ascending composite key of spec §4.4
(negative group size, Representative name, Sequence length, Checksum) — the
sorted list is a permutation of the clusters, strictly increasing in the
composite key, and the membership rows assign each Group the Cluster
Identifier `pre ++ rank` by its zero-based position in this order. -/
theorem C1_ranking_order (preferred : List String) (pre : String)
    (seqs : List (String × List String))
    (hne : ∀ p ∈ seqs, p.2 ≠ []) (hnd : ∀ p ∈ seqs, p.2.Nodup)
    (hdisj : seqs.Pairwise (fun p q => ∀ x ∈ p.2, x ∉ q.2)) :
    ∃ cs, buildClusters preferred seqs = some cs ∧
      pySorted clusterLt cs = pySorted compositeLt cs ∧
      (pySorted clusterLt cs).Perm cs ∧
      (pySorted clusterLt cs).Pairwise compositeLt ∧
      tsvRows pre cs = (numberFrom 0 (pySorted compositeLt cs)).flatMap (clusterRows pre) := by
  refine ⟨seqs.map (clusterOf preferred), buildClusters_of_nonempty preferred seqs hne,
    ?_, ?_, ?_, ?_⟩
  all_goals
    have hrepr := @clusters_repr_pairwise_ne preferred _ hne hdisj
  case _ =>
    exact pySorted_congr _ (clusterLt_congr_compositeLt hrepr)
  case _ =>
    exact pySorted_perm clusterLt _
  case _ =>
    rw [pySorted_congr _ (clusterLt_congr_compositeLt hrepr)]
    have hLe := pySorted_pairwise compositeLt_asymm compositeLt_trans
      (seqs.map (clusterOf preferred))
    have hsymm : ∀ {x y : ClusterT}, x.reprNm ≠ y.reprNm → y.reprNm ≠ x.reprNm :=
      fun h he => h he.symm
    have hrepr2 : (pySorted compositeLt (seqs.map (clusterOf preferred))).Pairwise
        (fun c d => c.reprNm ≠ d.reprNm) :=
      ((pySorted_perm compositeLt _).pairwise_iff hsymm).mpr hrepr
    refine (hLe.and hrepr2).imp ?_
    intro a b ⟨hnl, hab⟩
    rcases compositeLt_connex_of_key_ne (compositeKey_ne_of_repr_ne hab) with h | h
    · exact h
    · exact absurd h hnl
  case _ =>
    rw [tsvRows, pySorted_congr _ (clusterLt_congr_compositeLt hrepr)]

theorem C1_witness :
    ∃ cs, buildClusters [] [("MAAA", ["A", "B"]), ("MAAB", ["C"])] = some cs ∧
      pySorted clusterLt cs = pySorted compositeLt cs ∧
      (pySorted clusterLt cs).Perm cs ∧
      (pySorted clusterLt cs).Pairwise compositeLt ∧
      tsvRows "nr-" cs
        = (numberFrom 0 (pySorted compositeLt cs)).flatMap (clusterRows "nr-") :=
  C1_ranking_order [] "nr-" [("MAAA", ["A", "B"]), ("MAAB", ["C"])]
    (by decide) (by decide) (by decide)

theorem mem_keys_foldDict :
    ∀ (ps : List (String × String)) (d : List (String × String)) (k : String),
      k ∈ ((ps.foldl (fun d p => dictSet p.1 p.2 d) d).map Prod.fst) ↔
        k ∈ ps.map Prod.fst ∨ k ∈ d.map Prod.fst
  | [], _, _ => by simp
  | p :: ps, d, k => by
    rw [List.foldl_cons, mem_keys_foldDict ps, List.map_cons]
    rw [mem_keys_dictSet]
    simp only [List.mem_cons]
    tauto

theorem numberFrom_snd_mem :
    ∀ (k : Nat) (l : List ClusterT) (i : Nat) (c : ClusterT),
      (i, c) ∈ numberFrom k l → c ∈ l
  | _, [], _, _, h => absurd h (List.not_mem_nil _)
  | k, x :: l, i, c, h => by
    rw [numberFrom] at h
    rcases List.mem_cons.mp h with he | h2
    · rw [List.mem_cons]
      exact Or.inl (congrArg Prod.snd he)
    · exact List.mem_cons_of_mem x (numberFrom_snd_mem (k + 1) l i c h2)

theorem numberFrom_mem_of_mem :
    ∀ (k : Nat) (l : List ClusterT) (c : ClusterT), c ∈ l →
      ∃ i, (i, c) ∈ numberFrom k l
  | _, [], c, h => absurd h (List.not_mem_nil c)
  | k, x :: l, c, h => by
    rcases List.mem_cons.mp h with rfl | h2
    · exact ⟨k, List.mem_cons_self _ _⟩
    · rcases numberFrom_mem_of_mem (k + 1) l c h2 with ⟨i, hi⟩
      exact ⟨i, List.mem_cons_of_mem _ hi⟩

theorem clusterRows_reprNm {pre : String} {ic : Nat × ClusterT} {row : Row}
    (h : row ∈ clusterRows pre ic) : row.reprNm = ic.2.reprNm := by
  rw [clusterRows] at h
  rcases List.mem_map.mp h with ⟨nm, _, he⟩
  rw [← he]

theorem clusterRows_ne_nil {pre : String} {ic : Nat × ClusterT}
    (h : ic.2.nms ≠ []) : clusterRows pre ic ≠ [] := by
  rw [clusterRows]
  intro hc
  rcases List.map_eq_nil_iff.mp hc with h2
  exact h ((pySorted_eq_nil_iff strLt ic.2.nms).mp h2)

theorem reprsDict_eq_foldDict (cs : List ClusterT) (seqs : List (String × List String)) :
    reprsDict cs seqs =
      ((cs.zip seqs).map (fun pc => (pc.1.reprNm, pc.2.1))).foldl
        (fun d p => dictSet p.1 p.2 d) [] := by
  rw [reprsDict, List.foldl_map]

/-- The `(representative, sequence)` write-backs of the main loop, one per
group, as fed to the `reprs` dict. -/
theorem reprsDict_pairs (preferred : List String) (g : List (String × List String)) :
    (((g.map (clusterOf preferred)).zip g).map (fun pc => (pc.1.reprNm, pc.2.1)))
      = g.map (fun e => (reprOf preferred e.2, e.1)) := by
  have hz : (g.map (clusterOf preferred)).zip g
      = g.map (fun e => (clusterOf preferred e, e)) := by
    have h2 : (g.map (clusterOf preferred)).zip (g.map id)
        = g.map (fun e => (clusterOf preferred e, id e)) := List.zip_map' _ _ g
    rw [List.map_id] at h2
    exact h2
  rw [hz, List.map_map]
  rfl

/-! ### Order-insensitivity infrastructure -/

theorem pySorted_eq_of_perm_of_connex {r : α → α → Prop} [DecidableRel r]
    (hasym : ∀ x y, r x y → ¬ r y x) (htrans : ∀ x y z, r x y → r y z → r x z)
    (hconnex : ∀ x y, x ≠ y → r x y ∨ r y x) {l1 l2 : List α} (hperm : l1.Perm l2) :
    pySorted r l1 = pySorted r l2 := by
  refine sorted_perm_unique
    (((pySorted_perm r l1).trans hperm).trans (pySorted_perm r l2).symm)
    (pySorted_pairwise hasym htrans l1) (pySorted_pairwise hasym htrans l2) ?_
  intro a _ b _ hn1 hn2
  by_contra hne
  rcases hconnex a b hne with h | h
  · exact hn1 h
  · exact hn2 h

theorem pySorted_idem {r : α → α → Prop} [DecidableRel r]
    (hasym : ∀ x y, r x y → ¬ r y x) (htrans : ∀ x y z, r x y → r y z → r x z)
    (hconnex : ∀ x y, x ≠ y → r x y ∨ r y x) (l : List α) :
    pySorted r (pySorted r l) = pySorted r l :=
  pySorted_eq_of_perm_of_connex hasym htrans hconnex (pySorted_perm r l)

/-- Sorting clusters with pairwise distinct representatives by the composite
key is invariant under permutation of the input. -/
theorem pySorted_composite_eq_of_perm {l1 l2 : List ClusterT} (hperm : l1.Perm l2)
    (hrepr : l1.Pairwise (fun c d => c.reprNm ≠ d.reprNm)) :
    pySorted compositeLt l1 = pySorted compositeLt l2 := by
  have hsymm : ∀ {x y : ClusterT}, x.reprNm ≠ y.reprNm → y.reprNm ≠ x.reprNm :=
    fun h he => h he.symm
  have hrepr1 : (pySorted compositeLt l1).Pairwise (fun c d => c.reprNm ≠ d.reprNm) :=
    ((pySorted_perm compositeLt l1).pairwise_iff hsymm).mpr hrepr
  refine sorted_perm_unique
    (((pySorted_perm compositeLt l1).trans hperm).trans (pySorted_perm compositeLt l2).symm)
    (pySorted_pairwise compositeLt_asymm compositeLt_trans l1)
    (pySorted_pairwise compositeLt_asymm compositeLt_trans l2) ?_
  intro a ha b hb hn1 hn2
  rcases pairwise_two_mem hrepr1 a ha b hb with he | hne | hne
  · exact he
  · rcases compositeLt_connex_of_key_ne (compositeKey_ne_of_repr_ne hne) with h | h
    · exact absurd h hn1
    · exact absurd h hn2
  · rcases compositeLt_connex_of_key_ne (compositeKey_ne_of_repr_ne (hsymm hne)) with h | h
    · exact absurd h hn1
    · exact absurd h hn2

theorem foldDict_fresh :
    ∀ (ps : List (String × String)) (d : List (String × String)),
      (ps.map Prod.fst).Nodup → (∀ p ∈ ps, p.1 ∉ d.map Prod.fst) →
      ps.foldl (fun d p => dictSet p.1 p.2 d) d = d ++ ps
  | [], d, _, _ => by simp
  | p :: ps, d, hnd, hfresh => by
    rw [List.map_cons, List.nodup_cons] at hnd
    rw [List.foldl_cons, dictSet_absent p.2 (hfresh p (List.mem_cons_self p ps)),
      foldDict_fresh ps (d ++ [(p.1, p.2)]) hnd.2 ?_]
    · simp
    · intro q hq hc
      rw [List.map_append, List.mem_append] at hc
      rcases hc with hc | hc
      · exact hfresh q (List.mem_cons_of_mem p hq) hc
      · simp only [List.map_cons, List.map_nil, List.mem_singleton] at hc
        exact hnd.1 (hc ▸ List.mem_map.mpr ⟨q, hq, rfl⟩)

theorem numberFrom_map (f : ClusterT → ClusterT) :
    ∀ (k : Nat) (l : List ClusterT),
      numberFrom k (l.map f) = (numberFrom k l).map (fun ic => (ic.1, f ic.2))
  | _, [] => rfl
  | k, c :: l => by
    rw [List.map_cons, numberFrom, numberFrom, numberFrom_map f (k + 1) l, List.map_cons]

theorem flatMap_congr_left {f f2 : α → List β} :
    ∀ l : List α, (∀ x ∈ l, f x = f2 x) → l.flatMap f = l.flatMap f2
  | [], _ => rfl
  | x :: l, h => by
    rw [List.flatMap_cons, List.flatMap_cons, h x (List.mem_cons_self x l),
      flatMap_congr_left l (fun y hy => h y (List.mem_cons_of_mem x hy))]

theorem canonCluster_clusterOf (preferred : List String) (s : String) (nms : List String) :
    canonCluster (clusterOf preferred (s, nms)) =
      ⟨-(nms.length : Int), reprOf preferred nms, s.length, pySorted strLt nms,
        engineChecksum s⟩ := rfl

theorem clusterRows_canon (pre : String) (i : Nat) (c : ClusterT) :
    clusterRows pre (i, canonCluster c) = clusterRows pre (i, c) := by
  rw [clusterRows, clusterRows]
  have hnms : pySorted strLt (canonCluster c).nms = pySorted strLt c.nms :=
    pySorted_idem strLt_asymm strLt_trans strLt_connex c.nms
  rw [hnms]
  rfl

/-- Inserting the canonical view of each cluster does not change the emitted
rows. -/
theorem flatMap_rows_canon (pre : String) (l : List ClusterT) :
    (numberFrom 0 (l.map canonCluster)).flatMap (clusterRows pre)
      = (numberFrom 0 l).flatMap (clusterRows pre) := by
  rw [numberFrom_map, List.flatMap_map]
  exact flatMap_congr_left _ (fun ic _ => clusterRows_canon pre ic.1 ic.2)

theorem namesOf_entry :
    ∀ (g : List (String × List String)), (g.map Prod.fst).Nodup →
      ∀ e ∈ g, namesOf e.1 g = e.2
  | [], _, e, he => absurd he (List.not_mem_nil e)
  | (k, nms) :: rest, h, e, he => by
    rw [List.map_cons, List.nodup_cons] at h
    rcases List.mem_cons.mp he with rfl | he2
    · exact namesOf_cons_self _ _ _
    · have hne : e.1 ≠ k := by
        intro hc
        exact h.1 (hc ▸ List.mem_map.mpr ⟨e, he2, rfl⟩)
      rw [namesOf_cons_ne hne, namesOf_entry rest h.2 e he2]

theorem namesOf_key_props {g : List (String × List String)}
    (hnd : (g.map Prod.fst).Nodup) (hprops : ∀ e ∈ g, e.2 ≠ [] ∧ e.2.Nodup)
    {s : String} (hs : s ∈ g.map Prod.fst) :
    namesOf s g ≠ [] ∧ (namesOf s g).Nodup := by
  rcases List.mem_map.mp hs with ⟨e, he, rfl⟩
  rw [namesOf_entry g hnd e he]
  exact hprops e he

theorem runEngine_eq_records (preferred : List String) (pre : String) (w : Nat)
    (coln colr : String) (lines : List String) :
    runEngine preferred pre w coln colr lines
      = runEngineRecords preferred pre w coln colr (parseRecords lines) := by
  rw [runEngine, runEngineRecords, load_seqs_eq_groupRecords]

/-- Name uniqueness of the records makes the groups' name sets pairwise
disjoint. -/
theorem groupRecords_disjoint_of_uniq {recs : List (String × String)}
    (hu : ∀ p ∈ recs, ∀ q ∈ recs, p.1 = q.1 → p.2 = q.2) :
    (groupRecords recs).Pairwise (fun p q => ∀ x ∈ p.2, x ∉ q.2) := by
  have hknd := groupRecords_keys_nodup recs
  have hpair : (groupRecords recs).Pairwise (fun p q => p.1 ≠ q.1) :=
    List.pairwise_map.mp hknd
  refine hpair.imp_of_mem ?_
  intro p q hp hq hne12 x hxp hxq
  have h1 : x ∈ namesOf p.1 (groupRecords recs) := by
    rw [namesOf_entry _ hknd p hp]
    exact hxp
  have h2 : x ∈ namesOf q.1 (groupRecords recs) := by
    rw [namesOf_entry _ hknd q hq]
    exact hxq
  rw [mem_namesOf_groupRecords] at h1 h2
  exact hne12 (hu (x, p.1) h1 (x, q.1) h2 rfl)

/-- Two groupings with the same keys and the same name sets per key (all
well-formed and pairwise disjoint) make the engine's clustering stage emit
identical artifacts. -/
theorem runEngineSeqs_congr (preferred : List String) (pre : String) (w : Nat)
    (coln colr : String) {g1 g2 : List (String × List String)}
    (hk1 : (g1.map Prod.fst).Nodup) (hk2 : (g2.map Prod.fst).Nodup)
    (hprops1 : ∀ e ∈ g1, e.2 ≠ [] ∧ e.2.Nodup)
    (hprops2 : ∀ e ∈ g2, e.2 ≠ [] ∧ e.2.Nodup)
    (hdisj1 : g1.Pairwise (fun p q => ∀ x ∈ p.2, x ∉ q.2))
    (hdisj2 : g2.Pairwise (fun p q => ∀ x ∈ p.2, x ∉ q.2))
    (hm : ∀ s x, x ∈ namesOf s g1 ↔ x ∈ namesOf s g2)
    (hkeys : ∀ s, s ∈ g1.map Prod.fst ↔ s ∈ g2.map Prod.fst) :
    runEngineSeqs preferred pre w coln colr g1
      = runEngineSeqs preferred pre w coln colr g2 := by
  have hne1 : ∀ e ∈ g1, e.2 ≠ [] := fun e he => (hprops1 e he).1
  have hne2 : ∀ e ∈ g2, e.2 ≠ [] := fun e he => (hprops2 e he).1
  have hkeysperm : (g1.map Prod.fst).Perm (g2.map Prod.fst) :=
    (List.perm_ext_iff_of_nodup hk1 hk2).mpr hkeys
  have hrepr1 := @clusters_repr_pairwise_ne preferred _ hne1 hdisj1
  have hrepr2 := @clusters_repr_pairwise_ne preferred _ hne2 hdisj2
  have hFeq : ∀ s ∈ g1.map Prod.fst,
      canonCluster (clusterOf preferred (s, namesOf s g1))
        = canonCluster (clusterOf preferred (s, namesOf s g2)) := by
    intro s hs
    have hs2 : s ∈ g2.map Prod.fst := (hkeys s).mp hs
    rcases namesOf_key_props hk1 hprops1 hs with ⟨_, hnd1s⟩
    rcases namesOf_key_props hk2 hprops2 hs2 with ⟨_, hnd2s⟩
    have hsetperm : (namesOf s g1).Perm (namesOf s g2) :=
      (List.perm_ext_iff_of_nodup hnd1s hnd2s).mpr (fun x => hm s x)
    rw [canonCluster_clusterOf, canonCluster_clusterOf, hsetperm.length_eq,
      reprOf_congr preferred (fun x => hm s x),
      pySorted_eq_of_perm_of_connex strLt_asymm strLt_trans strLt_connex hsetperm]
  have hfact : ∀ (g : List (String × List String)), (g.map Prod.fst).Nodup →
      (g.map (clusterOf preferred)).map canonCluster
        = (g.map Prod.fst).map
            (fun s => canonCluster (clusterOf preferred (s, namesOf s g))) := by
    intro g hnd
    conv_lhs => rw [assoc_eq_keys_map g hnd]
    rw [List.map_map, List.map_map]
    rfl
  have hcanonperm : ((g1.map (clusterOf preferred)).map canonCluster).Perm
      ((g2.map (clusterOf preferred)).map canonCluster) := by
    rw [hfact g1 hk1, hfact g2 hk2]
    have h1 := hkeysperm.map (fun s => canonCluster (clusterOf preferred (s, namesOf s g1)))
    have h2 : (g2.map Prod.fst).map
        (fun s => canonCluster (clusterOf preferred (s, namesOf s g1)))
          = (g2.map Prod.fst).map
            (fun s => canonCluster (clusterOf preferred (s, namesOf s g2))) := by
      apply List.map_congr_left
      intro s hs
      exact hFeq s ((hkeys s).mpr hs)
    rw [h2] at h1
    exact h1
  have hreprC1 : ((g1.map (clusterOf preferred)).map canonCluster).Pairwise
      (fun c d => c.reprNm ≠ d.reprNm) := List.pairwise_map.mpr hrepr1
  have hSC : pySorted compositeLt ((g1.map (clusterOf preferred)).map canonCluster)
      = pySorted compositeLt ((g2.map (clusterOf preferred)).map canonCluster) :=
    pySorted_composite_eq_of_perm hcanonperm hreprC1
  have hsortcanon : ∀ (cs : List ClusterT),
      cs.Pairwise (fun c d => c.reprNm ≠ d.reprNm) →
      (numberFrom 0 (pySorted clusterLt cs)).flatMap (clusterRows pre)
        = (numberFrom 0 (pySorted compositeLt (cs.map canonCluster))).flatMap
            (clusterRows pre) := by
    intro cs hrepr
    rw [pySorted_congr _ (clusterLt_congr_compositeLt hrepr)]
    have hmapsort : (pySorted compositeLt cs).map canonCluster
        = pySorted compositeLt (cs.map canonCluster) :=
      pySorted_map canonCluster cs (fun a _ b _ => (compositeLt_canon a b).symm)
    rw [← hmapsort, flatMap_rows_canon]
  have hrows : tsvRows pre (g1.map (clusterOf preferred))
      = tsvRows pre (g2.map (clusterOf preferred)) := by
    rw [tsvRows, tsvRows, hsortcanon _ hrepr1, hsortcanon _ hrepr2, hSC]
  have hpairs : ∀ (g : List (String × List String)), (g.map Prod.fst).Nodup →
      g.map (fun e => (reprOf preferred e.2, e.1))
        = (g.map Prod.fst).map (fun s => (reprOf preferred (namesOf s g), s)) := by
    intro g hnd
    conv_lhs => rw [assoc_eq_keys_map g hnd]
    rw [List.map_map]
    rfl
  have hpsnodup : ∀ (g : List (String × List String)),
      (∀ e ∈ g, e.2 ≠ []) → g.Pairwise (fun p q => ∀ x ∈ p.2, x ∉ q.2) →
      ((g.map (fun e => (reprOf preferred e.2, e.1))).map Prod.fst).Nodup := by
    intro g hne hdisj
    rw [List.map_map]
    have hr := @clusters_repr_pairwise_ne preferred _ hne hdisj
    have hr2 := List.pairwise_map.mp hr
    exact List.pairwise_map.mpr (hr2.imp (fun h => h))
  have hps : ∀ (g : List (String × List String)),
      (∀ e ∈ g, e.2 ≠ []) → g.Pairwise (fun p q => ∀ x ∈ p.2, x ∉ q.2) →
      reprsDict (g.map (clusterOf preferred)) g
        = g.map (fun e => (reprOf preferred e.2, e.1)) := by
    intro g hne hdisj
    rw [reprsDict_eq_foldDict, reprsDict_pairs]
    rw [foldDict_fresh _ [] (hpsnodup g hne hdisj) (by simp)]
    simp
  have hpairsperm : (g1.map (fun e => (reprOf preferred e.2, e.1))).Perm
      (g2.map (fun e => (reprOf preferred e.2, e.1))) := by
    rw [hpairs g1 hk1, hpairs g2 hk2]
    have h1 := hkeysperm.map (fun s => (reprOf preferred (namesOf s g1), s))
    have h2 : (g2.map Prod.fst).map (fun s => (reprOf preferred (namesOf s g1), s))
        = (g2.map Prod.fst).map (fun s => (reprOf preferred (namesOf s g2), s)) := by
      apply List.map_congr_left
      intro s hs
      rw [reprOf_congr preferred (fun x => hm s x)]
    rw [h2] at h1
    exact h1
  have hfasta : write_seqs w (reprsDict (g1.map (clusterOf preferred)) g1)
      = write_seqs w (reprsDict (g2.map (clusterOf preferred)) g2) := by
    rw [write_seqs, write_seqs, hps g1 hne1 hdisj1, hps g2 hne2 hdisj2,
      pySorted_eq_of_perm_of_connex pairLt_asymm pairLt_trans pairLt_connex hpairsperm]
  rw [runEngineSeqs, runEngineSeqs, buildClusters_of_nonempty preferred g1 hne1,
    buildClusters_of_nonempty preferred g2 hne2]
  show some (write_seqs w (reprsDict (g1.map (clusterOf preferred)) g1),
      clustersTsv pre coln colr (g1.map (clusterOf preferred)))
    = some (write_seqs w (reprsDict (g2.map (clusterOf preferred)) g2),
      clustersTsv pre coln colr (g2.map (clusterOf preferred)))
  rw [hfasta, clustersTsv, clustersTsv, hrows]

/-- C7: the two emitted artifacts are mutually consistent — the Representative
named in every membership-table row is the header name of some record of the
de-duplicated sequence file, and every sequence-file record's name appears as
the Representative of some membership-table row. -/
theorem C7_outputs_consistent (preferred : List String) (pre : String)
    (lines : List String) :
    ∃ cs, buildClusters preferred (load_seqs lines) = some cs ∧
      (∀ row ∈ tsvRows pre cs,
        row.reprNm ∈ (pySorted pairLt (reprsDict cs (load_seqs lines))).map Prod.fst) ∧
      (∀ p ∈ pySorted pairLt (reprsDict cs (load_seqs lines)),
        ∃ row ∈ tsvRows pre cs, row.reprNm = p.1) := by
  set g := load_seqs lines with hg
  have hprops : ∀ e ∈ g, e.2 ≠ [] ∧ e.2.Nodup := by
    rw [hg, load_seqs_eq_groupRecords]
    exact groupRecords_nms_prop (parseRecords lines)
  have hne : ∀ e ∈ g, e.2 ≠ [] := fun e he => (hprops e he).1
  have hbc := buildClusters_of_nonempty preferred g hne
  refine ⟨g.map (clusterOf preferred), hbc, ?_, ?_⟩
  · intro row hrow
    rcases List.mem_flatMap.mp hrow with ⟨ic, hic, hrow2⟩
    have hcmem : ic.2 ∈ pySorted clusterLt (g.map (clusterOf preferred)) :=
      numberFrom_snd_mem 0 _ ic.1 ic.2 (by
        cases ic
        exact hic)
    have hcmem2 : ic.2 ∈ g.map (clusterOf preferred) :=
      (pySorted_perm clusterLt _).mem_iff.mp hcmem
    rcases List.mem_map.mp hcmem2 with ⟨e, he, hce⟩
    have hkey : row.reprNm ∈ ((reprsDict (g.map (clusterOf preferred)) g).map Prod.fst) := by
      rw [reprsDict_eq_foldDict, mem_keys_foldDict]
      left
      rw [reprsDict_pairs, List.map_map]
      refine List.mem_map.mpr ⟨e, he, ?_⟩
      rw [clusterRows_reprNm hrow2, ← hce]
      rfl
    have hperm : ((pySorted pairLt (reprsDict (g.map (clusterOf preferred)) g)).map
        Prod.fst).Perm ((reprsDict (g.map (clusterOf preferred)) g).map Prod.fst) :=
      (pySorted_perm pairLt _).map Prod.fst
    exact hperm.mem_iff.mpr hkey
  · intro p hp
    have hp2 : p ∈ reprsDict (g.map (clusterOf preferred)) g :=
      (pySorted_perm pairLt _).mem_iff.mp hp
    have hkey : p.1 ∈ ((reprsDict (g.map (clusterOf preferred)) g).map Prod.fst) :=
      List.mem_map.mpr ⟨p, hp2, rfl⟩
    rw [reprsDict_eq_foldDict, mem_keys_foldDict] at hkey
    rcases hkey with hkey | hkey
    · rw [reprsDict_pairs, List.map_map] at hkey
      rcases List.mem_map.mp hkey with ⟨e, he, hee⟩
      have hcmem : clusterOf preferred e ∈ g.map (clusterOf preferred) :=
        List.mem_map.mpr ⟨e, he, rfl⟩
      have hcmem2 : clusterOf preferred e ∈
          pySorted clusterLt (g.map (clusterOf preferred)) :=
        (pySorted_perm clusterLt _).mem_iff.mpr hcmem
      rcases numberFrom_mem_of_mem 0 _ _ hcmem2 with ⟨i, hi⟩
      have hnz : (clusterOf preferred e).nms ≠ [] := by
        rw [nms_clusterOf]
        exact hne e he
      have hrows := @clusterRows_ne_nil pre (i, clusterOf preferred e) hnz
      rcases List.exists_mem_of_ne_nil _ hrows with ⟨row, hrow⟩
      refine ⟨row, List.mem_flatMap.mpr ⟨(i, clusterOf preferred e), hi, hrow⟩, ?_⟩
      rw [clusterRows_reprNm hrow]
      rw [← hee]
      rfl
    · simp at hkey

theorem C7_witness :
    ∃ cs, buildClusters [] (load_seqs [">A", "MK"]) = some cs ∧
      (∀ row ∈ tsvRows "nr-" cs,
        row.reprNm ∈ (pySorted pairLt (reprsDict cs (load_seqs [">A", "MK"]))).map Prod.fst) ∧
      (∀ p ∈ pySorted pairLt (reprsDict cs (load_seqs [">A", "MK"])),
        ∃ row ∈ tsvRows "nr-" cs, row.reprNm = p.1) :=
  C7_outputs_consistent [] "nr-" [">A", "MK"]

/-- C4 counterexample: without name uniqueness the engine is order-sensitive.
The same multiset of records (name `A` occurs with both sequences `XY` and
`ZW`) presented in two orders yields different Cluster Identifiers: the name
`B` is ranked `nr-0` in the first run and `nr-1` in the second, because the
two cluster tuples agree on group size and representative and their member
sets are incomparable under Python set comparison, so the stable sort keeps
insertion order. -/
theorem C4_counterexample :
    (parseRecords [">A", "XY", ">B", "XY", ">A", "ZW", ">C", "ZW"]).Perm
      (parseRecords [">A", "ZW", ">C", "ZW", ">A", "XY", ">B", "XY"]) ∧
    (runEngine [] "nr-" 60 "name" "repr"
        [">A", "XY", ">B", "XY", ">A", "ZW", ">C", "ZW"]).isSome ∧
    (runEngine [] "nr-" 60 "name" "repr"
        [">A", "ZW", ">C", "ZW", ">A", "XY", ">B", "XY"]).isSome ∧
    "B" ∈ (tsvRows "nr-" ((buildClusters []
        (load_seqs [">A", "XY", ">B", "XY", ">A", "ZW", ">C", "ZW"])).getD [])).map
        Row.name ∧
    (∀ row ∈ tsvRows "nr-" ((buildClusters []
        (load_seqs [">A", "XY", ">B", "XY", ">A", "ZW", ">C", "ZW"])).getD []),
      row.name = "B" → row.clusterId = "nr-0") ∧
    (∀ row ∈ tsvRows "nr-" ((buildClusters []
        (load_seqs [">A", "ZW", ">C", "ZW", ">A", "XY", ">B", "XY"])).getD []),
      row.name = "B" → row.clusterId = "nr-1") := by
  decide

/-- C4 (amended): for inputs in which each Name maps to exactly one Sequence,
two runs of the engine on the same multiset of records and the same
preference set, with the records presented in any order, produce identical
artifacts — hence identical Representative choices per Group, identical
Checksums, and identical Cluster Identifiers. -/
theorem C4_order_determinism (preferred : List String) (pre : String) (w : Nat)
    (coln colr : String) {recs1 recs2 : List (String × String)}
    (hperm : recs1.Perm recs2)
    (huniq : ∀ p ∈ recs1, ∀ q ∈ recs1, p.1 = q.1 → p.2 = q.2) :
    runEngineRecords preferred pre w coln colr recs1
      = runEngineRecords preferred pre w coln colr recs2 := by
  have huniq2 : ∀ p ∈ recs2, ∀ q ∈ recs2, p.1 = q.1 → p.2 = q.2 := by
    intro p hp q hq
    exact huniq p (hperm.mem_iff.mpr hp) q (hperm.mem_iff.mpr hq)
  rw [runEngineRecords, runEngineRecords]
  refine runEngineSeqs_congr preferred pre w coln colr
    (groupRecords_keys_nodup recs1) (groupRecords_keys_nodup recs2)
    (groupRecords_nms_prop recs1) (groupRecords_nms_prop recs2)
    (groupRecords_disjoint_of_uniq huniq) (groupRecords_disjoint_of_uniq huniq2)
    ?_ ?_
  · intro s x
    rw [mem_namesOf_groupRecords, mem_namesOf_groupRecords]
    exact hperm.mem_iff
  · intro s
    rw [mem_keys_groupRecords, mem_keys_groupRecords]
    constructor
    · rintro ⟨x, hx⟩
      exact ⟨x, hperm.mem_iff.mp hx⟩
    · rintro ⟨x, hx⟩
      exact ⟨x, hperm.mem_iff.mpr hx⟩

theorem C4_witness :
    ([("B", "MK"), ("A", "MK")] : List (String × String)).Perm
      [("A", "MK"), ("B", "MK")] ∧
    (∀ p ∈ ([("B", "MK"), ("A", "MK")] : List (String × String)),
      ∀ q ∈ ([("B", "MK"), ("A", "MK")] : List (String × String)),
        p.1 = q.1 → p.2 = q.2) ∧
    runEngineRecords [] "nr-" 60 "name" "repr" [("B", "MK"), ("A", "MK")]
      = runEngineRecords [] "nr-" 60 "name" "repr" [("A", "MK"), ("B", "MK")] :=
  ⟨by decide, by decide,
    C4_order_determinism [] "nr-" 60 "name" "repr" (by decide) (by decide)⟩

theorem C9_witness :
    ((reprsDict ((buildClusters [] [("AB", ["X"]), ("CD", ["X"])]).getD [])
        [("AB", ["X"]), ("CD", ["X"])]).map Prod.fst).Nodup ∧
    List.lookup "X" (reprsDict ((buildClusters [] [("AB", ["X"]), ("CD", ["X"])]).getD [])
        [("AB", ["X"]), ("CD", ["X"])]) = some "CD" ∧
    (reprsDict ((buildClusters [] [("AB", ["X"]), ("CD", ["X"])]).getD [])
        [("AB", ["X"]), ("CD", ["X"])]).length < ([("AB", ["X"]), ("CD", ["X"])] :
        List (String × List String)).length :=
  C9_repr_collision [] [("AB", ["X"]), ("CD", ["X"])]
    ((buildClusters [] [("AB", ["X"]), ("CD", ["X"])]).getD []) "X" "AB" "CD"
    (by decide) (by decide)

end SelectUniq
